import Mathlib

/-!
Verification development for the `contrail` backtracking-state library.

The Rust sources are embedded shallowly:

* `src/contrail/src/mem.rs` — `Memory` is a byte vector, modelled as `List Nat`;
  `Pointer<T>` / `ArrayPointer<T>` are byte offsets; the `Bytes` codec of a type
  is modelled by a `Codec` record (an encode/decode pair over byte lists with the
  round-trip law that the Rust trait demands of its implementors).
* `src/contrail/src/lib.rs` — `Trail` holds two memories plus a stack of
  snapshots of the backtrackable memory; `new_level` pushes a clone, `backtrack`
  pops.  The Rust `Vec` used as a stack (push/pop at the end) is modelled as a
  Lean `List` with cons/head at the front, which implements the same LIFO
  discipline.
* `src/contrail-collections/src/{sparse_set,linked_list,bit_set}.rs` — the
  collections store their state in `Array<M, _>` handles living in disjoint
  regions of the arenas; each collection is modelled by a record holding the
  contents of those arrays (`List Nat` per array), with every operation
  translated statement by statement from the Rust, preserving the exact order
  of reads and writes.
-/

namespace Contrail

/-! ## Byte-level memory (src/contrail/src/mem.rs)

A `Memory` is a byte vector.  `readBytes m off len` models
`memory.bytes.get_unchecked(off..off+len)` and `writeBytes` models
`val.write_bytes(memory.bytes.get_unchecked_mut(off..off+len))`; both are used
by the pointer handles only with windows that lie inside the memory. -/

/-- Read the byte window `[off, off+len)` of a memory. -/
def readBytes (m : List Nat) (off len : Nat) : List Nat :=
  (m.drop off).take len

/-- Overwrite the byte window starting at `off` with `data`. -/
def writeBytes (m : List Nat) (off : Nat) (data : List Nat) : List Nat :=
  m.take off ++ data ++ m.drop (off + data.length)

/-- Byte offset of the `i`-th block when the blocks are laid out consecutively,
exactly as an append-only `MemoryBuilder` lays out consecutive allocations. -/
def offsetUpTo (bs : List (List Nat)) (i : Nat) : Nat :=
  ((bs.take i).map List.length).sum

theorem offsetUpTo_zero (bs : List (List Nat)) : offsetUpTo bs 0 = 0 := by
  simp [offsetUpTo]

theorem offsetUpTo_cons (b : List Nat) (bs : List (List Nat)) (i : Nat) :
    offsetUpTo (b :: bs) (i + 1) = b.length + offsetUpTo bs i := by
  simp [offsetUpTo]

/-- Reading the window of block `i` out of the concatenation of all blocks
returns block `i`. -/
theorem readBytes_flatten (bs : List (List Nat)) (i : Nat) (h : i < bs.length) :
    readBytes bs.flatten (offsetUpTo bs i) (bs.getD i []).length = bs.getD i [] := by
  induction bs generalizing i with
  | nil => simp at h
  | cons b bs ih =>
    cases i with
    | zero =>
      simp only [offsetUpTo_zero, List.flatten_cons, readBytes, List.drop_zero,
        List.getD_cons_zero]
      exact List.take_left b bs.flatten
    | succ i =>
      have hi : i < bs.length := by simpa using h
      simp only [offsetUpTo_cons, List.flatten_cons, readBytes]
      rw [List.drop_append]
      exact ih i hi

/-- Writing block-`i`'s window inside the concatenation of all blocks replaces
exactly block `i`, provided the data has the block's length. -/
theorem writeBytes_flatten (bs : List (List Nat)) (i : Nat) (data : List Nat)
    (h : i < bs.length) (hl : data.length = (bs.getD i []).length) :
    writeBytes bs.flatten (offsetUpTo bs i) data = (bs.set i data).flatten := by
  induction bs generalizing i with
  | nil => simp at h
  | cons b bs ih =>
    cases i with
    | zero =>
      have hl' : data.length = b.length := by simpa [List.getD] using hl
      simp only [offsetUpTo_zero, List.flatten_cons, writeBytes, List.take_zero, Nat.zero_add,
        List.set, List.nil_append]
      rw [hl', List.drop_left]
    | succ i =>
      have hi : i < bs.length := by simpa using h
      have hl' : data.length = (bs.getD i []).length := by simpa [List.getD] using hl
      simp only [offsetUpTo_cons, List.flatten_cons, writeBytes]
      rw [List.take_append, Nat.add_assoc, List.drop_append, List.set, List.flatten_cons]
      have := ih i hi hl'
      simp only [writeBytes] at this
      rw [← this]
      simp [List.append_assoc]

/-! ## The byte codec (trait `Bytes` in src/contrail/src/mem.rs)

A `Codec α` packages the contract of the Rust `Bytes` trait: a fixed byte
length, a write (`encode`) producing exactly that many bytes, and a read
(`decode`) that returns the value previously written. -/

structure Codec (α : Type) where
  length : Nat
  encode : α → List Nat
  decode : List Nat → α
  length_encode : ∀ a, (encode a).length = length
  decode_encode : ∀ a, decode (encode a) = a

/-! ## Pointer handles (src/contrail/src/mem.rs) -/

/-- A `Pointer<T>`: a byte offset into a memory. -/
structure Ptr where
  offset : Nat
deriving DecidableEq

/-- `Pointer::new(builder, val)`: records the builder's current length as the
offset, extends the builder with zeroed bytes and writes the value there; the
net effect on the builder's bytes is appending the encoding. -/
def pointerNew (builder : List Nat) (data : List Nat) : Ptr × List Nat :=
  (⟨builder.length⟩, builder ++ data)

/-- `MemoryBuilder::finish`: the memory's bytes are the builder's bytes. -/
def memFinish (builder : List Nat) : List Nat := builder

/-- `Pointer::get`. -/
def ptrGet {α : Type} (c : Codec α) (p : Ptr) (m : List Nat) : α :=
  c.decode (readBytes m p.offset c.length)

/-- `Pointer::set`. -/
def ptrSet {α : Type} (c : Codec α) (p : Ptr) (m : List Nat) (v : α) : List Nat :=
  writeBytes m p.offset (c.encode v)

/-- `Pointer::update`: `set(memory, f(get(memory)))`. -/
def ptrUpdate {α : Type} (c : Codec α) (p : Ptr) (m : List Nat) (f : α → α) : List Nat :=
  ptrSet c p m (f (ptrGet c p m))

/-- An `ArrayPointer<T>`: a byte offset plus a length in elements. -/
structure ArrPtr where
  offset : Nat
  len : Nat
deriving DecidableEq

/-- `ArrayPointer::get` at index `i` reads the window at `offset + i * LENGTH`
(the Rust code first asserts `i < len`; all uses below are in bounds). -/
def arrGet {α : Type} (c : Codec α) (a : ArrPtr) (m : List Nat) (i : Nat) : α :=
  c.decode (readBytes m (a.offset + i * c.length) c.length)

/-- `ArrayPointer::set` at index `i` (in-bounds uses only). -/
def arrSet {α : Type} (c : Codec α) (a : ArrPtr) (m : List Nat) (i : Nat) (v : α) : List Nat :=
  writeBytes m (a.offset + i * c.length) (c.encode v)

/-- An array element access is a plain pointer access at the element's offset:
elements of an `ArrayPointer` are consecutive single-value blocks. -/
theorem arrGet_eq_ptrGet {α : Type} (c : Codec α) (a : ArrPtr) (m : List Nat) (i : Nat) :
    arrGet c a m i = ptrGet c ⟨a.offset + i * c.length⟩ m := rfl

/-- Allocating a sequence of blocks with `Pointer::new`, starting from a given
builder. Returns the pointers in order together with the final builder. -/
def allocFrom (builder : List Nat) : List (List Nat) → List Ptr × List Nat
  | [] => ([], builder)
  | d :: rest =>
    let pb := pointerNew builder d
    let r := allocFrom pb.2 rest
    (pb.1 :: r.1, r.2)

/-- A whole allocation sequence on a fresh `MemoryBuilder::new()`. -/
def allocAll (inits : List (List Nat)) : List Ptr × List Nat :=
  allocFrom [] inits

theorem allocFrom_snd (builder : List Nat) (inits : List (List Nat)) :
    (allocFrom builder inits).2 = builder ++ inits.flatten := by
  induction inits generalizing builder with
  | nil => simp [allocFrom]
  | cons d rest ih => simp [allocFrom, pointerNew, ih]

theorem allocFrom_fst (builder : List Nat) (inits : List (List Nat)) (i : Nat)
    (h : i < inits.length) :
    (allocFrom builder inits).1.getD i ⟨0⟩ = ⟨builder.length + offsetUpTo inits i⟩ := by
  induction inits generalizing builder i with
  | nil => simp at h
  | cons d rest ih =>
    cases i with
    | zero => simp [allocFrom, pointerNew, List.getD, offsetUpTo_zero]
    | succ i =>
      have hi : i < rest.length := by simpa using h
      have := ih (builder ++ d) i hi
      simp only [allocFrom, pointerNew, List.getD_cons_succ] at this ⊢
      rw [this, offsetUpTo_cons]
      simp [Nat.add_assoc]

theorem allocAll_snd (inits : List (List Nat)) : (allocAll inits).2 = inits.flatten := by
  simp [allocAll, allocFrom_snd]

theorem allocAll_fst (inits : List (List Nat)) (i : Nat) (h : i < inits.length) :
    (allocAll inits).1.getD i ⟨0⟩ = ⟨offsetUpTo inits i⟩ := by
  simpa using allocFrom_fst [] inits i h

/-! ## Small list helpers -/

theorem getD_set_self {α : Type} (l : List α) (i : Nat) (v d : α) (h : i < l.length) :
    (l.set i v).getD i d = v := by
  rw [List.getD_eq_getElem?_getD, List.getElem?_set]
  simp [h]

theorem getD_set_ne {α : Type} (l : List α) {i j : Nat} (v d : α) (h : i ≠ j) :
    (l.set i v).getD j d = l.getD j d := by
  rw [List.getD_eq_getElem?_getD, List.getElem?_set, if_neg h, ← List.getD_eq_getElem?_getD]

theorem set_getD_self {α : Type} (l : List α) (i : Nat) (d : α) (h : i < l.length) :
    l.set i (l.getD i d) = l := by
  apply List.ext_getElem?
  intro j
  rw [List.getElem?_set]
  by_cases hij : i = j
  · subst hij
    simp [List.getD_eq_getElem l d h, h]
  · simp [hij]

/-! ## Heterogeneous write sequences over one memory

The operations in claims C1 and C9 are `set`/`update`/`get` calls through
`Value` / `Array` handles.  Every such handle denotes one block (a `Value`) or
a contiguous run of single-element blocks (an `Array`); an in-bounds
`set`/`update` reads and writes exactly one block's byte window.  `MOp` is one
such operation, identified by the block index it touches; the data carried by
a `set` is the byte encoding of the written value, and an `update` carries the
byte-level version of its value-level function (`encode ∘ f ∘ decode`). -/

inductive MOp where
  | mset (i : Nat) (data : List Nat)
  | mupd (i : Nat) (f : List Nat → List Nat)
  | mget (i : Nat)

/-- Block lengths of a layout. -/
def blockLens (bs : List (List Nat)) : List Nat := bs.map List.length

/-- Byte offset of block `i` given the block lengths. -/
def offAt (ls : List Nat) (i : Nat) : Nat := (ls.take i).sum

theorem offAt_blockLens (bs : List (List Nat)) (i : Nat) :
    offAt (blockLens bs) i = offsetUpTo bs i := by
  simp [offAt, blockLens, offsetUpTo, List.map_take]

theorem blockLens_getD (bs : List (List Nat)) (i : Nat) :
    (blockLens bs).getD i 0 = (bs.getD i []).length := by
  rcases Nat.lt_or_ge i bs.length with h | h
  · rw [List.getD_eq_getElem _ _ (by simpa [blockLens] using h),
      List.getD_eq_getElem _ _ h]
    simp [blockLens]
  · rw [List.getD_eq_default _ _ (by simpa [blockLens] using h),
      List.getD_eq_default _ _ h]
    rfl

/-- One operation acting on the raw bytes of a memory laid out with block
lengths `ls` (this is what the pointer-level `set`/`update`/`get` do). -/
def memStep (ls : List Nat) (m : List Nat) : MOp → List Nat
  | .mset i d => writeBytes m (offAt ls i) d
  | .mupd i f => writeBytes m (offAt ls i) (f (readBytes m (offAt ls i) (ls.getD i 0)))
  | .mget _ => m

def memRun (ls : List Nat) (m : List Nat) (ops : List MOp) : List Nat :=
  ops.foldl (memStep ls) m

/-- Legality of an operation: its block index is allocated and the bytes it
writes have the block's length (automatic for encodings of the block's type). -/
def MOpLegal (ls : List Nat) : MOp → Prop
  | .mset i d => i < ls.length ∧ d.length = ls.getD i 0
  | .mupd i f => i < ls.length ∧ ∀ b : List Nat, b.length = ls.getD i 0 → (f b).length = ls.getD i 0
  | .mget _ => True

/-- Whether an operation writes block `i` (`get` writes nothing). -/
def MOpWrites (i : Nat) : MOp → Bool
  | .mset j _ => j == i
  | .mupd j _ => j == i
  | .mget _ => false

/-- Specification-level store: the current byte content of every block.  One
step is literally last-write-wins on the touched block. -/
def specStep (store : List (List Nat)) : MOp → List (List Nat)
  | .mset i d => store.set i d
  | .mupd i f => store.set i (f (store.getD i []))
  | .mget _ => store

def specRun (store : List (List Nat)) (ops : List MOp) : List (List Nat) :=
  ops.foldl specStep store

theorem blockLens_specStep (store : List (List Nat)) (op : MOp)
    (h : MOpLegal (blockLens store) op) : blockLens (specStep store op) = blockLens store := by
  cases op with
  | mset i d =>
    obtain ⟨hi, hd⟩ := h
    have hd' : d.length = (List.map List.length store).getD i 0 := hd
    simp only [specStep, blockLens, List.map_set]
    rw [hd']
    exact set_getD_self _ _ _ (by simpa [blockLens] using hi)
  | mupd i f =>
    obtain ⟨hi, hf⟩ := h
    have hlen : (f (store.getD i [])).length = (List.map List.length store).getD i 0 :=
      hf _ (blockLens_getD store i).symm
    simp only [specStep, blockLens, List.map_set]
    rw [hlen]
    exact set_getD_self _ _ _ (by simpa [blockLens] using hi)
  | mget i => rfl

theorem memStep_flatten (store : List (List Nat)) (op : MOp)
    (h : MOpLegal (blockLens store) op) :
    memStep (blockLens store) store.flatten op = (specStep store op).flatten := by
  cases op with
  | mset i d =>
    obtain ⟨hi, hd⟩ := h
    have hi' : i < store.length := by simpa [blockLens] using hi
    rw [blockLens_getD] at hd
    simp only [memStep, specStep, offAt_blockLens]
    exact writeBytes_flatten store i d hi' hd
  | mupd i f =>
    obtain ⟨hi, hf⟩ := h
    have hi' : i < store.length := by simpa [blockLens] using hi
    have hread : readBytes store.flatten (offsetUpTo store i) ((blockLens store).getD i 0) =
        store.getD i [] := by
      rw [blockLens_getD]
      exact readBytes_flatten store i hi'
    have hlen : (f (store.getD i [])).length = (store.getD i []).length := by
      have := hf (store.getD i []) (blockLens_getD store i).symm
      rwa [blockLens_getD] at this
    simp only [memStep, specStep, offAt_blockLens]
    rw [hread]
    exact writeBytes_flatten store i _ hi' hlen
  | mget i => rfl

/-- Refinement: running the byte-level operations on the flat memory computes
the concatenation of the specification store. -/
theorem memRun_flatten (store : List (List Nat)) (ops : List MOp)
    (h : ∀ op ∈ ops, MOpLegal (blockLens store) op) :
    memRun (blockLens store) store.flatten ops = (specRun store ops).flatten := by
  induction ops generalizing store with
  | nil => rfl
  | cons op ops ih =>
    have hop : MOpLegal (blockLens store) op := h op (List.mem_cons_self _ _)
    have hrest : ∀ o ∈ ops, MOpLegal (blockLens (specStep store op)) o := by
      intro o ho
      rw [blockLens_specStep store op hop]
      exact h o (List.mem_cons_of_mem _ ho)
    simp only [memRun, specRun, List.foldl_cons]
    rw [memStep_flatten store op hop, ← memRun, ← specRun,
      ← blockLens_specStep store op hop]
    exact ih (specStep store op) hrest

theorem blockLens_specRun (store : List (List Nat)) (ops : List MOp)
    (h : ∀ op ∈ ops, MOpLegal (blockLens store) op) :
    blockLens (specRun store ops) = blockLens store := by
  induction ops generalizing store with
  | nil => rfl
  | cons op ops ih =>
    have hop : MOpLegal (blockLens store) op := h op (List.mem_cons_self _ _)
    have hrest : ∀ o ∈ ops, MOpLegal (blockLens (specStep store op)) o := by
      intro o ho
      rw [blockLens_specStep store op hop]
      exact h o (List.mem_cons_of_mem _ ho)
    simp only [specRun, List.foldl_cons]
    rw [← specRun, ih (specStep store op) hrest, blockLens_specStep store op hop]

/-- A block no operation writes keeps its initial content. -/
theorem specRun_untouched (store : List (List Nat)) (ops : List MOp) (i : Nat)
    (h : ∀ op ∈ ops, MOpWrites i op = false) :
    (specRun store ops).getD i [] = store.getD i [] := by
  induction ops generalizing store with
  | nil => rfl
  | cons op ops ih =>
    have hop : MOpWrites i op = false := h op (List.mem_cons_self _ _)
    have hrest : ∀ o ∈ ops, MOpWrites i o = false := fun o ho => h o (List.mem_cons_of_mem _ ho)
    simp only [specRun, List.foldl_cons]
    rw [← specRun, ih (specStep store op) hrest]
    cases op with
    | mset j d =>
      have : j ≠ i := by simpa [MOpWrites] using hop
      simp only [specStep]
      exact getD_set_ne _ _ _ this
    | mupd j f =>
      have : j ≠ i := by simpa [MOpWrites] using hop
      simp only [specStep]
      exact getD_set_ne _ _ _ this
    | mget j => rfl

/-! ## The trail (src/contrail/src/lib.rs) -/

/-- The `Trail`: backtrackable memory, non-backtrackable memory, and the stack
of snapshots of the backtrackable memory (`Vec<Memory>` with push/pop at the
end, modelled with cons/head at the front). -/
structure Trail where
  backtrackable_mem : List Nat
  non_backtrackable_mem : List Nat
  trail : List (List Nat)

/-- `Trail::new_level`: push a clone of the backtrackable memory. -/
def Trail.new_level (t : Trail) : Trail :=
  { t with trail := t.backtrackable_mem :: t.trail }

/-- `Trail::backtrack`: pop the most recent snapshot into the backtrackable
memory; no-op when the stack is empty. -/
def Trail.backtrack (t : Trail) : Trail :=
  match t.trail with
  | [] => t
  | prev :: rest => { t with backtrackable_mem := prev, trail := rest }

/-- `Trail::trail_len`. -/
def Trail.trail_len (t : Trail) : Nat := t.trail.length

/-- `Trail::is_trail_empty`. -/
def Trail.is_trail_empty (t : Trail) : Bool := t.trail.isEmpty

/-- `TrailBuilder::finish`: both memories from their builders, empty stack. -/
def trailFinish (btBuilder nbtBuilder : List Nat) : Trail :=
  { backtrackable_mem := memFinish btBuilder
    non_backtrackable_mem := memFinish nbtBuilder
    trail := [] }

/-- The two storage modes (src/contrail/src/storage.rs): a `StorageMode` routes
an operation to one of the trail's two memories. -/
inductive Storage where
  | backtrackable
  | nonBacktrackable
deriving DecidableEq

/-- One `Value`/`Array` operation on a trail: a storage mode selecting the
memory, and the block-level operation performed on it. -/
structure TOp where
  mode : Storage
  op : MOp

/-- Routing of one operation through its storage mode, as in
`storage.rs`: `Backtrackable::memory_mut` returns the backtrackable memory,
`NonBacktrackable::memory_mut` the non-backtrackable one. -/
def trailStep (bls nls : List Nat) (t : Trail) (o : TOp) : Trail :=
  match o.mode with
  | .backtrackable =>
    { t with backtrackable_mem := memStep bls t.backtrackable_mem o.op }
  | .nonBacktrackable =>
    { t with non_backtrackable_mem := memStep nls t.non_backtrackable_mem o.op }

def trailRun (bls nls : List Nat) (t : Trail) (ops : List TOp) : Trail :=
  ops.foldl (trailStep bls nls) t

/-- The sub-sequence of operations routed to the non-backtrackable memory. -/
def nbtOps (ops : List TOp) : List MOp :=
  ops.filterMap fun o => match o.mode with
    | .nonBacktrackable => some o.op
    | .backtrackable => none

/-- The sub-sequence of operations routed to the backtrackable memory. -/
def btOps (ops : List TOp) : List MOp :=
  ops.filterMap fun o => match o.mode with
    | .backtrackable => some o.op
    | .nonBacktrackable => none

theorem trailRun_trail (bls nls : List Nat) (t : Trail) (ops : List TOp) :
    (trailRun bls nls t ops).trail = t.trail := by
  induction ops generalizing t with
  | nil => rfl
  | cons o ops ih =>
    simp only [trailRun, List.foldl_cons]
    rw [← trailRun, ih]
    cases h : o.mode <;> simp [trailStep, h]

theorem trailRun_nbt (bls nls : List Nat) (t : Trail) (ops : List TOp) :
    (trailRun bls nls t ops).non_backtrackable_mem =
      memRun nls t.non_backtrackable_mem (nbtOps ops) := by
  induction ops generalizing t with
  | nil => rfl
  | cons o ops ih =>
    simp only [trailRun, List.foldl_cons]
    rw [← trailRun, ih]
    cases h : o.mode <;>
      simp [trailStep, h, nbtOps, memRun, List.filterMap_cons, trailStep]

theorem trailRun_bt (bls nls : List Nat) (t : Trail) (ops : List TOp) :
    (trailRun bls nls t ops).backtrackable_mem =
      memRun bls t.backtrackable_mem (btOps ops) := by
  induction ops generalizing t with
  | nil => rfl
  | cons o ops ih =>
    simp only [trailRun, List.foldl_cons]
    rw [← trailRun, ih]
    cases h : o.mode <;>
      simp [trailStep, h, btOps, memRun, List.filterMap_cons, trailStep]

/-- C1.  For every trail whose two memories are laid out as blocks `B`
(backtrackable) and `C` (non-backtrackable), and every sequence `s` of
value/array get-set-update operations that is legal for the layout it touches,
running `new_level(); s; backtrack()`:
(a) restores the backtrackable memory byte-for-byte, hence
(b, c) every `Value::get` / `Array::get` observable of the backtrackable arena
equals its value immediately before `new_level`;
(d) leaves the non-backtrackable memory equal to the result of last-write-wins
replay of the non-backtrackable operations of `s` on the stable blocks `C`, so
(e) reading block `i` yields the last bytes `s` wrote to it,
(f) a typed get through a handle of block `i` returns the value whose encoding
was last written there, and
(g) a block that `s` never wrote still holds its pre-existing content. -/
theorem trail_snapshot_restore (B C : List (List Nat)) (s : List TOp) (t : Trail)
    (hleg : ∀ op ∈ nbtOps s, MOpLegal (blockLens C) op)
    (_hbt : t.backtrackable_mem = B.flatten)
    (hnbt : t.non_backtrackable_mem = C.flatten) :
    let u := Trail.backtrack (trailRun (blockLens B) (blockLens C) (Trail.new_level t) s)
    u.backtrackable_mem = t.backtrackable_mem ∧
    (∀ (α : Type) (c : Codec α) (p : Ptr),
      ptrGet c p u.backtrackable_mem = ptrGet c p t.backtrackable_mem) ∧
    (∀ (α : Type) (c : Codec α) (a : ArrPtr) (i : Nat),
      arrGet c a u.backtrackable_mem i = arrGet c a t.backtrackable_mem i) ∧
    u.non_backtrackable_mem = (specRun C (nbtOps s)).flatten ∧
    (∀ i, i < C.length →
      readBytes u.non_backtrackable_mem (offsetUpTo C i) ((C.getD i []).length) =
        (specRun C (nbtOps s)).getD i []) ∧
    (∀ i, i < C.length → ∀ (α : Type) (c : Codec α) (v : α),
      (specRun C (nbtOps s)).getD i [] = c.encode v →
        ptrGet c ⟨offsetUpTo C i⟩ u.non_backtrackable_mem = v) ∧
    (∀ i, i < C.length → (∀ op ∈ nbtOps s, MOpWrites i op = false) →
      readBytes u.non_backtrackable_mem (offsetUpTo C i) ((C.getD i []).length) =
        C.getD i []) := by
  intro u
  have hstack : (trailRun (blockLens B) (blockLens C) (Trail.new_level t) s).trail =
      t.backtrackable_mem :: t.trail := by
    rw [trailRun_trail]
    rfl
  have hbt_u : u.backtrackable_mem = t.backtrackable_mem := by
    show (Trail.backtrack _).backtrackable_mem = _
    rw [Trail.backtrack.eq_def]
    split
    · rename_i heq
      rw [hstack] at heq
      exact absurd heq (by simp)
    · rename_i prev rest heq
      rw [hstack] at heq
      injection heq with h1 _
      simpa using h1.symm
  have hnbt_run : (trailRun (blockLens B) (blockLens C) (Trail.new_level t) s).non_backtrackable_mem =
      (specRun C (nbtOps s)).flatten := by
    rw [trailRun_nbt]
    show memRun (blockLens C) t.non_backtrackable_mem (nbtOps s) = _
    rw [hnbt]
    exact memRun_flatten C (nbtOps s) hleg
  have hnbt_u : u.non_backtrackable_mem = (specRun C (nbtOps s)).flatten := by
    show (Trail.backtrack _).non_backtrackable_mem = _
    rw [Trail.backtrack.eq_def]
    split
    · exact hnbt_run
    · exact hnbt_run
  have hlens : blockLens (specRun C (nbtOps s)) = blockLens C :=
    blockLens_specRun C (nbtOps s) hleg
  have hlen_block : ∀ i, ((specRun C (nbtOps s)).getD i []).length = ((C.getD i []).length) := by
    intro i
    rw [← blockLens_getD, ← blockLens_getD, hlens]
  have hlen_store : (specRun C (nbtOps s)).length = C.length := by
    have := congrArg List.length hlens
    simpa [blockLens] using this
  have hread : ∀ i, i < C.length →
      readBytes u.non_backtrackable_mem (offsetUpTo C i) ((C.getD i []).length) =
        (specRun C (nbtOps s)).getD i [] := by
    intro i hi
    have hoff : offsetUpTo (specRun C (nbtOps s)) i = offsetUpTo C i := by
      rw [← offAt_blockLens, ← offAt_blockLens, hlens]
    rw [hnbt_u, ← hoff, ← hlen_block i]
    exact readBytes_flatten _ i (by rwa [hlen_store])
  refine ⟨hbt_u, ?_, ?_, hnbt_u, hread, ?_, ?_⟩
  · intro α c p
    rw [hbt_u]
  · intro α c a i
    rw [hbt_u]
  · intro i hi α c v henc
    have := hread i hi
    rw [henc] at this
    have hclen : (C.getD i []).length = c.length := by
      rw [← hlen_block i, henc, c.length_encode]
    rw [ptrGet, ← hclen, this, c.decode_encode]
  · intro i hi huntouched
    rw [hread i hi, specRun_untouched C (nbtOps s) i huntouched]

/-- Closed witness for C1: two backtrackable blocks and one stable block; the
operation sequence writes both arenas, and after the round trip the
backtrackable byte is restored while the stable byte holds the written value. -/
theorem trail_snapshot_restore_witness :
    (∀ op ∈ nbtOps [⟨Storage.nonBacktrackable, MOp.mset 0 [7]⟩,
        ⟨Storage.backtrackable, MOp.mset 1 [9]⟩],
      MOpLegal (blockLens [[3]]) op) ∧
    ((⟨[1, 2], [3], []⟩ : Trail).backtrackable_mem = ([[1], [2]] : List (List Nat)).flatten) ∧
    ((⟨[1, 2], [3], []⟩ : Trail).non_backtrackable_mem = ([[3]] : List (List Nat)).flatten) ∧
    (let u := Trail.backtrack (trailRun (blockLens [[1], [2]]) (blockLens [[3]])
        (Trail.new_level ⟨[1, 2], [3], []⟩)
        [⟨Storage.nonBacktrackable, MOp.mset 0 [7]⟩, ⟨Storage.backtrackable, MOp.mset 1 [9]⟩])
     u.backtrackable_mem = (⟨[1, 2], [3], []⟩ : Trail).backtrackable_mem ∧
     u.non_backtrackable_mem =
       (specRun [[3]] (nbtOps [⟨Storage.nonBacktrackable, MOp.mset 0 [7]⟩,
         ⟨Storage.backtrackable, MOp.mset 1 [9]⟩])).flatten) := by
  refine ⟨?_, rfl, rfl, ?_⟩
  · intro op hop
    simp only [nbtOps, List.filterMap_cons] at hop
    simp only [List.mem_cons] at hop
    rcases hop with h | h
    · subst h
      exact ⟨by decide, by decide⟩
    · simp at h
  · have h := trail_snapshot_restore [[1], [2]] [[3]]
      [⟨Storage.nonBacktrackable, MOp.mset 0 [7]⟩, ⟨Storage.backtrackable, MOp.mset 1 [9]⟩]
      ⟨[1, 2], [3], []⟩
      (by
        intro op hop
        simp only [nbtOps, List.filterMap_cons] at hop
        simp only [List.mem_cons] at hop
        rcases hop with h | h
        · subst h
          exact ⟨by decide, by decide⟩
        · simp at h)
      rfl rfl
    exact ⟨h.1, h.2.2.2.1⟩

/-! ## C4: stack depth -/

/-- One `new_level` or `backtrack` call. -/
inductive LevelOp where
  | level
  | back
deriving DecidableEq

def levelStep (t : Trail) : LevelOp → Trail
  | .level => t.new_level
  | .back => t.backtrack

def levelRun (t : Trail) (ops : List LevelOp) : Trail :=
  ops.foldl levelStep t

/-- Number of `new_level` calls in a sequence. -/
def countLevels (ops : List LevelOp) : Nat :=
  ops.countP fun o => o == LevelOp.level

/-- Number of `backtrack` calls in a sequence. -/
def countBacks (ops : List LevelOp) : Nat :=
  ops.countP fun o => o == LevelOp.back

/-- Every prefix of the sequence has at least as many `new_level` calls as
`backtrack` calls (so no backtrack ever hits an empty stack). -/
def PrefixBalanced (ops : List LevelOp) : Prop :=
  ∀ k, countBacks (ops.take k) ≤ countLevels (ops.take k)

theorem countLevels_cons_level (ops : List LevelOp) :
    countLevels (LevelOp.level :: ops) = countLevels ops + 1 := by
  simp [countLevels]

theorem countLevels_cons_back (ops : List LevelOp) :
    countLevels (LevelOp.back :: ops) = countLevels ops := by
  simp [countLevels]

theorem countBacks_cons_level (ops : List LevelOp) :
    countBacks (LevelOp.level :: ops) = countBacks ops := by
  simp [countBacks]

theorem countBacks_cons_back (ops : List LevelOp) :
    countBacks (LevelOp.back :: ops) = countBacks ops + 1 := by
  simp [countBacks]

theorem levelRun_len (ops : List LevelOp) :
    ∀ t : Trail,
      (∀ k, countBacks (ops.take k) ≤ t.trail.length + countLevels (ops.take k)) →
      (levelRun t ops).trail.length + countBacks ops = t.trail.length + countLevels ops := by
  induction ops with
  | nil => intro t _; simp [levelRun, countBacks, countLevels]
  | cons o ops ih =>
    intro t hbal
    cases o with
    | level =>
      have hrest : ∀ k, countBacks (ops.take k) ≤
          (t.new_level).trail.length + countLevels (ops.take k) := by
        intro k
        have h := hbal (k + 1)
        rw [List.take_succ_cons, countBacks_cons_level, countLevels_cons_level] at h
        have hnl : (t.new_level).trail.length = t.trail.length + 1 := rfl
        omega
      have h := ih t.new_level hrest
      have hnl : (t.new_level).trail.length = t.trail.length + 1 := rfl
      simp only [levelRun, List.foldl_cons, levelStep] at h ⊢
      rw [countBacks_cons_level, countLevels_cons_level]
      omega
    | back =>
      have hnonempty : 1 ≤ t.trail.length := by
        have h := hbal 1
        simpa [countBacks, countLevels, List.countP_cons] using h
      obtain ⟨m, rest, hmr⟩ : ∃ m rest, t.trail = m :: rest := by
        cases htr : t.trail with
        | nil => rw [htr] at hnonempty; simp at hnonempty
        | cons m rest => exact ⟨m, rest, rfl⟩
      have hback : (t.backtrack).trail = rest := by
        rw [Trail.backtrack.eq_def, hmr]
      have hlen : t.trail.length = rest.length + 1 := by rw [hmr]; rfl
      have hrest : ∀ k, countBacks (ops.take k) ≤
          (t.backtrack).trail.length + countLevels (ops.take k) := by
        intro k
        have h := hbal (k + 1)
        rw [List.take_succ_cons, countBacks_cons_back, countLevels_cons_back] at h
        rw [hback]
        omega
      have h := ih t.backtrack hrest
      simp only [levelRun, List.foldl_cons, levelStep] at h ⊢
      rw [countBacks_cons_back, countLevels_cons_back]
      rw [hback] at h
      omega

/-- Counterexample to C4 as stated: on a fresh trail, the sequence
`backtrack(); new_level()` has `k = 1` levels and `m = 1 <= k` backtracks, yet
`trail_len()` is `1`, not `k - m = 0` (the backtrack on the empty stack is a
no-op). -/
theorem stack_depth_counterexample :
    Trail.trail_len (levelRun ⟨[], [], []⟩ [LevelOp.back, LevelOp.level]) = 1 ∧
    countLevels [LevelOp.back, LevelOp.level] = 1 ∧
    countBacks [LevelOp.back, LevelOp.level] = 1 ∧
    Trail.trail_len (levelRun ⟨[], [], []⟩ [LevelOp.back, LevelOp.level]) ≠ 1 - 1 := by
  refine ⟨rfl, rfl, rfl, by decide⟩

/-- C4 (amended).  Starting from a trail with an empty snapshot stack, after
`k` calls to `new_level` interleaved with `m <= k` calls to `backtrack` such
that no prefix of the sequence contains more backtracks than new levels,
`trail_len()` equals `k - m`, and `is_trail_empty()` is `trail_len() == 0`. -/
theorem stack_depth_law (ops : List LevelOp) (t : Trail) (ht : t.trail = [])
    (hbal : PrefixBalanced ops) :
    (levelRun t ops).trail_len = countLevels ops - countBacks ops ∧
    countBacks ops ≤ countLevels ops ∧
    ((levelRun t ops).is_trail_empty = true ↔ (levelRun t ops).trail_len = 0) := by
  have hlen : (levelRun t ops).trail.length + countBacks ops =
      t.trail.length + countLevels ops := by
    apply levelRun_len
    intro k
    have := hbal k
    omega
  rw [ht] at hlen
  simp only [List.length_nil, Nat.zero_add] at hlen
  have hmk : countBacks ops ≤ countLevels ops := by
    have := hbal ops.length
    simpa [List.take_length] using this
  refine ⟨by simp only [Trail.trail_len]; omega, hmk, ?_⟩
  simp [Trail.is_trail_empty, Trail.trail_len, List.isEmpty_iff_length_eq_zero]

/-- Closed witness for C4 (amended): `new_level(); new_level(); backtrack()` is
prefix-balanced and ends with stack depth `2 - 1 = 1`. -/
theorem stack_depth_law_witness :
    ((⟨[], [], []⟩ : Trail).trail = []) ∧
    PrefixBalanced [LevelOp.level, LevelOp.level, LevelOp.back] ∧
    (levelRun ⟨[], [], []⟩ [LevelOp.level, LevelOp.level, LevelOp.back]).trail_len =
      countLevels [LevelOp.level, LevelOp.level, LevelOp.back] -
        countBacks [LevelOp.level, LevelOp.level, LevelOp.back] := by
  have hbal : PrefixBalanced [LevelOp.level, LevelOp.level, LevelOp.back] := by
    intro k
    match k with
    | 0 => decide
    | 1 => decide
    | 2 => decide
    | (n + 3) =>
      have : ([LevelOp.level, LevelOp.level, LevelOp.back].take (n + 3)) =
          [LevelOp.level, LevelOp.level, LevelOp.back] := by
        apply List.take_of_length_le
        simp
      rw [this]
      decide
  exact ⟨rfl, hbal, (stack_depth_law _ _ rfl hbal).1⟩

/-! ## C9: pointer round trips on a single memory -/

/-- C9.  Allocate blocks `B` by a sequence of `Pointer::new` calls on one
`MemoryBuilder`, `finish()` it, and run any legal sequence of `set`/`update`/
`get` operations through the resulting handles.  Then reading through the
`i`-th handle returns the bytes most recently written through that handle —
the replay of `s` on the block store — regardless of the writes through the
other handles; a typed `get` returns the value whose encoding was last written
through the handle; and a handle never written still holds its initial value
from `Pointer::new`. -/
theorem pointer_roundtrip (B : List (List Nat)) (s : List MOp) (i : Nat)
    (hleg : ∀ op ∈ s, MOpLegal (blockLens B) op) (hi : i < B.length) :
    let mem := memRun (blockLens B) (memFinish (allocAll B).2) s
    ((allocAll B).1.getD i ⟨0⟩ = ⟨offsetUpTo B i⟩) ∧
    readBytes mem (offsetUpTo B i) ((B.getD i []).length) = (specRun B s).getD i [] ∧
    (∀ (α : Type) (c : Codec α) (v : α),
      (specRun B s).getD i [] = c.encode v → ptrGet c ⟨offsetUpTo B i⟩ mem = v) ∧
    ((∀ op ∈ s, MOpWrites i op = false) →
      readBytes mem (offsetUpTo B i) ((B.getD i []).length) = B.getD i []) := by
  intro mem
  have hmem : mem = (specRun B s).flatten := by
    show memRun (blockLens B) (memFinish (allocAll B).2) s = _
    rw [memFinish, allocAll_snd]
    exact memRun_flatten B s hleg
  have hlens : blockLens (specRun B s) = blockLens B := blockLens_specRun B s hleg
  have hlen_block : ∀ j, ((specRun B s).getD j []).length = ((B.getD j []).length) := by
    intro j
    rw [← blockLens_getD, ← blockLens_getD, hlens]
  have hlen_store : (specRun B s).length = B.length := by
    have := congrArg List.length hlens
    simpa [blockLens] using this
  have hread : readBytes mem (offsetUpTo B i) ((B.getD i []).length) = (specRun B s).getD i [] := by
    have hoff : offsetUpTo (specRun B s) i = offsetUpTo B i := by
      rw [← offAt_blockLens, ← offAt_blockLens, hlens]
    rw [hmem, ← hoff, ← hlen_block i]
    exact readBytes_flatten _ i (by rwa [hlen_store])
  refine ⟨allocAll_fst B i hi, hread, ?_, ?_⟩
  · intro α c v henc
    have hclen : (B.getD i []).length = c.length := by
      rw [← hlen_block i, henc, c.length_encode]
    rw [ptrGet, ← hclen, hread, henc, c.decode_encode]
  · intro huntouched
    rw [hread, specRun_untouched B s i huntouched]

/-- Closed witness for C9: three allocated blocks; writes through handles 0 and
2 leave handle 1 at its initial value, and handle 0 reads back its last write. -/
theorem pointer_roundtrip_witness :
    (∀ op ∈ [MOp.mset 0 [7], MOp.mset 2 [9], MOp.mset 0 [8]],
      MOpLegal (blockLens [[1], [2], [3]]) op) ∧
    (1 < ([[1], [2], [3]] : List (List Nat)).length) ∧
    readBytes (memRun (blockLens [[1], [2], [3]]) (memFinish (allocAll [[1], [2], [3]]).2)
        [MOp.mset 0 [7], MOp.mset 2 [9], MOp.mset 0 [8]])
      (offsetUpTo [[1], [2], [3]] 1) (([[1], [2], [3]] : List (List Nat)).getD 1 []).length =
      (specRun [[1], [2], [3]] [MOp.mset 0 [7], MOp.mset 2 [9], MOp.mset 0 [8]]).getD 1 [] := by
  have hleg : ∀ op ∈ [MOp.mset 0 [7], MOp.mset 2 [9], MOp.mset 0 [8]],
      MOpLegal (blockLens [[1], [2], [3]]) op := by
    intro op hop
    simp only [List.mem_cons] at hop
    rcases hop with h | h | h | h
    · subst h; exact ⟨by decide, by decide⟩
    · subst h; exact ⟨by decide, by decide⟩
    · subst h; exact ⟨by decide, by decide⟩
    · simp at h
  exact ⟨hleg, by decide,
    (pointer_roundtrip [[1], [2], [3]] [MOp.mset 0 [7], MOp.mset 2 [9], MOp.mset 0 [8]] 1
      hleg (by decide)).2.1⟩

/-! ## Sparse set (src/contrail-collections/src/sparse_set.rs)

The sparse set stores two `NonBacktrackableArray<usize>` handles (`values`,
`positions`) and one `Value<M, usize>` (`len`).  The three live in disjoint
arena blocks, so the byte-level refinement above lets us model the state by
the contents of the arrays plus the length.  Every operation below is the Rust
method translated statement by statement (array `get`/`set` become `getD`/
`set` on the lists, all in bounds under the invariant). -/

structure SparseSet where
  values : List Nat
  positions : List Nat
  len : Nat

/-- `SparseSet::new_full(builder, len)`: `values = positions = 0..len`. -/
def SparseSet.new_full (n : Nat) : SparseSet :=
  { values := List.range n, positions := List.range n, len := n }

/-- `SparseSet::contains`: `val < positions.len() && positions[val] < len`. -/
def SparseSet.contains (s : SparseSet) (v : Nat) : Bool :=
  decide (v < s.positions.length) && decide (s.positions.getD v 0 < s.len)

/-- `SparseSet::swap` (private): four writes exchanging slots `i` and `j`. -/
def SparseSet.swap (s : SparseSet) (i j : Nat) : SparseSet :=
  let val_i := s.values.getD i 0
  let val_j := s.values.getD j 0
  { values := (s.values.set i val_j).set j val_i
    positions := (s.positions.set val_i j).set val_j i
    len := s.len }

/-- `SparseSet::remove`. -/
def SparseSet.remove (s : SparseSet) (v : Nat) : SparseSet :=
  if s.contains v then
    let position := s.positions.getD v 0
    let new_size := s.len - 1
    let s1 := s.swap position new_size
    { s1 with len := new_size }
  else s

/-- Loop body of `SparseSet::filter`: `position` runs from `len - 1` (the
length at loop entry) down to `0`; `p` is the number of positions still to
process. -/
def SparseSet.filterAux (f : Nat → Bool) : Nat → SparseSet → SparseSet
  | 0, s => s
  | p + 1, s =>
    let val := s.values.getD p 0
    let s1 :=
      if !f val then
        let new_size := s.len - 1
        let s2 := s.swap p new_size
        { s2 with len := new_size }
      else s
    SparseSet.filterAux f p s1

/-- `SparseSet::filter`. -/
def SparseSet.filter (s : SparseSet) (f : Nat → Bool) : SparseSet :=
  SparseSet.filterAux f s.len s

/-- `Vec::dedup`: remove consecutive duplicates. -/
def dedupAdj : List Nat → List Nat
  | [] => []
  | [a] => [a]
  | a :: b :: rest => if a = b then dedupAdj (b :: rest) else a :: dedupAdj (b :: rest)

/-- The `vals.sort(); vals.dedup();` preprocessing of `SparseSet::intersect`. -/
def sortDedup (vals : List Nat) : List Nat :=
  dedupAdj (List.insertionSort (· ≤ ·) vals)

/-- Main loop of `SparseSet::intersect` over the sorted deduplicated
candidates, carrying `new_size`. -/
def SparseSet.intersectLoop : List Nat → SparseSet → Nat → SparseSet × Nat
  | [], s, new_size => (s, new_size)
  | v :: rest, s, new_size =>
    if s.contains v then
      let position := s.positions.getD v 0
      SparseSet.intersectLoop rest (s.swap position new_size) (new_size + 1)
    else
      SparseSet.intersectLoop rest s new_size

/-- `SparseSet::intersect`. -/
def SparseSet.intersect (s : SparseSet) (vals : List Nat) : SparseSet :=
  let r := SparseSet.intersectLoop (sortDedup vals) s 0
  { r.1 with len := r.2 }

/-- The sparse-set representation invariant for universe `0..n`: the two
arrays have length `n`, are mutually inverse permutations of `0..n`, and the
length is at most `n`. -/
def SSInv (n : Nat) (s : SparseSet) : Prop :=
  s.values.length = n ∧ s.positions.length = n ∧
  (∀ i, i < n → s.values.getD i 0 < n) ∧
  (∀ v, v < n → s.positions.getD v 0 < n) ∧
  (∀ i, i < n → s.positions.getD (s.values.getD i 0) 0 = i) ∧
  (∀ v, v < n → s.values.getD (s.positions.getD v 0) 0 = v) ∧
  s.len ≤ n

theorem new_full_SSInv (n : Nat) : SSInv n (SparseSet.new_full n) := by
  have hr : ∀ k, k < n → (List.range n).getD k 0 = k := by
    intro k hk
    rw [List.getD_eq_getElem _ _ (by simpa using hk)]
    simp
  refine ⟨by simp [SparseSet.new_full], by simp [SparseSet.new_full], ?_, ?_, ?_, ?_,
    le_refl n⟩
  · intro i hi
    show (List.range n).getD i 0 < n
    rw [hr i hi]
    exact hi
  · intro v hv
    show (List.range n).getD v 0 < n
    rw [hr v hv]
    exact hv
  · intro i hi
    show (List.range n).getD ((List.range n).getD i 0) 0 = i
    rw [hr i hi, hr i hi]
  · intro v hv
    show (List.range n).getD ((List.range n).getD v 0) 0 = v
    rw [hr v hv, hr v hv]

theorem swap_values_length (s : SparseSet) (i j : Nat) :
    (s.swap i j).values.length = s.values.length := by
  simp [SparseSet.swap]

theorem swap_positions_length (s : SparseSet) (i j : Nat) :
    (s.swap i j).positions.length = s.positions.length := by
  simp [SparseSet.swap]

theorem swap_len (s : SparseSet) (i j : Nat) : (s.swap i j).len = s.len := rfl

theorem swap_values_getD (s : SparseSet) (i j k : Nat)
    (hi : i < s.values.length) (hj : j < s.values.length) :
    (s.swap i j).values.getD k 0 =
      if k = j then s.values.getD i 0
      else if k = i then s.values.getD j 0
      else s.values.getD k 0 := by
  simp only [SparseSet.swap]
  by_cases hkj : k = j
  · subst hkj
    rw [if_pos rfl]
    exact getD_set_self _ _ _ _ (by simpa using hj)
  · rw [if_neg hkj, getD_set_ne _ _ _ (fun h => hkj h.symm)]
    by_cases hki : k = i
    · subst hki
      rw [if_pos rfl]
      exact getD_set_self _ _ _ _ hi
    · rw [if_neg hki, getD_set_ne _ _ _ (fun h => hki h.symm)]

theorem swap_positions_getD (s : SparseSet) (i j w : Nat)
    (hvi : s.values.getD i 0 < s.positions.length)
    (hvj : s.values.getD j 0 < s.positions.length) :
    (s.swap i j).positions.getD w 0 =
      if w = s.values.getD j 0 then i
      else if w = s.values.getD i 0 then j
      else s.positions.getD w 0 := by
  simp only [SparseSet.swap]
  by_cases hwj : w = s.values.getD j 0
  · subst hwj
    rw [if_pos rfl]
    exact getD_set_self _ _ _ _ (by simpa using hvj)
  · rw [if_neg hwj, getD_set_ne _ _ _ (fun h => hwj h.symm)]
    by_cases hwi : w = s.values.getD i 0
    · subst hwi
      rw [if_pos rfl]
      exact getD_set_self _ _ _ _ hvi
    · rw [if_neg hwi, getD_set_ne _ _ _ (fun h => hwi h.symm)]

/-- Values at distinct indices are distinct (via the inverse permutation). -/
theorem SSInv.values_inj {n : Nat} {s : SparseSet} (h : SSInv n s) {i j : Nat}
    (hi : i < n) (hj : j < n) (heq : s.values.getD i 0 = s.values.getD j 0) : i = j := by
  obtain ⟨_, _, _, _, hvp, _, _⟩ := h
  have h1 := hvp i hi
  have h2 := hvp j hj
  rw [heq] at h1
  exact h1.symm.trans h2

theorem swap_SSInv {n : Nat} {s : SparseSet} (h : SSInv n s) {i j : Nat}
    (hi : i < n) (hj : j < n) : SSInv n (s.swap i j) := by
  obtain ⟨hvl, hpl, hvb, hpb, hvp, hpv, hlen⟩ := h
  have hvi : s.values.getD i 0 < n := hvb i hi
  have hvj : s.values.getD j 0 < n := hvb j hj
  have hVg : ∀ k, (s.swap i j).values.getD k 0 =
      if k = j then s.values.getD i 0
      else if k = i then s.values.getD j 0
      else s.values.getD k 0 :=
    fun k => swap_values_getD s i j k (by omega) (by omega)
  have hPg : ∀ w, (s.swap i j).positions.getD w 0 =
      if w = s.values.getD j 0 then i
      else if w = s.values.getD i 0 then j
      else s.positions.getD w 0 :=
    fun w => swap_positions_getD s i j w (by omega) (by omega)
  refine ⟨by rw [swap_values_length]; exact hvl, by rw [swap_positions_length]; exact hpl,
    ?_, ?_, ?_, ?_, by rw [swap_len]; exact hlen⟩
  · intro k hk
    rw [hVg k]
    split
    · exact hvi
    · split
      · exact hvj
      · exact hvb k hk
  · intro w hw
    rw [hPg w]
    split
    · exact hi
    · split
      · exact hj
      · exact hpb w hw
  · intro k hk
    rw [hVg k]
    by_cases hkj : k = j
    · rw [if_pos hkj, hPg (s.values.getD i 0)]
      by_cases hvv : s.values.getD i 0 = s.values.getD j 0
      · have hij : i = j := SSInv.values_inj ⟨hvl, hpl, hvb, hpb, hvp, hpv, hlen⟩ hi hj hvv
        rw [if_pos hvv]
        exact hij.trans hkj.symm
      · rw [if_neg hvv, if_pos rfl]
        exact hkj.symm
    · rw [if_neg hkj]
      by_cases hki : k = i
      · rw [if_pos hki, hPg (s.values.getD j 0), if_pos rfl]
        exact hki.symm
      · rw [if_neg hki, hPg (s.values.getD k 0)]
        have h1 : s.values.getD k 0 ≠ s.values.getD j 0 := by
          intro hcon
          exact hkj (SSInv.values_inj ⟨hvl, hpl, hvb, hpb, hvp, hpv, hlen⟩ hk hj hcon)
        have h2 : s.values.getD k 0 ≠ s.values.getD i 0 := by
          intro hcon
          exact hki (SSInv.values_inj ⟨hvl, hpl, hvb, hpb, hvp, hpv, hlen⟩ hk hi hcon)
        rw [if_neg h1, if_neg h2]
        exact hvp k hk
  · intro w hw
    rw [hPg w]
    by_cases hwj : w = s.values.getD j 0
    · rw [if_pos hwj, hVg i]
      by_cases hij : i = j
      · rw [if_pos hij, hwj, hij]
      · rw [if_neg hij, if_pos rfl, hwj]
    · rw [if_neg hwj]
      by_cases hwi : w = s.values.getD i 0
      · rw [if_pos hwi, hVg j, if_pos rfl, hwi]
      · rw [if_neg hwi, hVg _]
        have hpw : s.positions.getD w 0 ≠ j := by
          intro hcon
          apply hwj
          rw [← hpv w hw, hcon]
        have hpw2 : s.positions.getD w 0 ≠ i := by
          intro hcon
          apply hwi
          rw [← hpv w hw, hcon]
        rw [if_neg hpw, if_neg hpw2]
        exact hpv w hw

theorem SSInv.with_len {n : Nat} {s : SparseSet} (h : SSInv n s) {m : Nat} (hm : m ≤ n) :
    SSInv n { s with len := m } := by
  obtain ⟨hvl, hpl, hvb, hpb, hvp, hpv, _⟩ := h
  exact ⟨hvl, hpl, hvb, hpb, hvp, hpv, hm⟩

theorem contains_eq (s : SparseSet) (v : Nat) :
    s.contains v = true ↔ v < s.positions.length ∧ s.positions.getD v 0 < s.len := by
  simp [SparseSet.contains]

theorem remove_SSInv {n : Nat} {s : SparseSet} (h : SSInv n s) (v : Nat) :
    SSInv n (s.remove v) := by
  unfold SparseSet.remove
  by_cases hc : s.contains v = true
  · rw [if_pos hc]
    obtain ⟨hvlen, hplt⟩ := (contains_eq s v).mp hc
    have hlen_le : s.len ≤ n := h.2.2.2.2.2.2
    have hp_lt : s.positions.getD v 0 < n := Nat.lt_of_lt_of_le hplt hlen_le
    have hns_lt : s.len - 1 < n := by omega
    exact (swap_SSInv h hp_lt hns_lt).with_len (by omega)
  · rw [if_neg hc]
    exact h

/-- One unfolding of the filter loop, with the branch condition in its source
form. -/
theorem filterAux_succ (f : Nat → Bool) (p : Nat) (s : SparseSet) :
    SparseSet.filterAux f (p + 1) s =
      SparseSet.filterAux f p
        (if !f (s.values.getD p 0) then
          { s.swap p (s.len - 1) with len := s.len - 1 }
        else s) := rfl

theorem filterAux_SSInv {n : Nat} (f : Nat → Bool) :
    ∀ (p : Nat) (s : SparseSet), SSInv n s → p ≤ s.len →
      SSInv n (SparseSet.filterAux f p s) := by
  intro p
  induction p with
  | zero =>
    intro s h _
    exact h
  | succ p ih =>
    intro s h hp
    rw [filterAux_succ]
    by_cases hf : f (s.values.getD p 0) = true
    · have hcond : (!f (s.values.getD p 0)) = false := by rw [hf]; rfl
      rw [if_neg (by rw [hcond]; simp)]
      exact ih s h (by omega)
    · have hf' : f (s.values.getD p 0) = false := by
        cases hb : f (s.values.getD p 0)
        · rfl
        · exact absurd hb hf
      have hcond : (!f (s.values.getD p 0)) = true := by rw [hf']; rfl
      rw [if_pos hcond]
      have hlen_le : s.len ≤ n := h.2.2.2.2.2.2
      have hpn : p < n := by omega
      have hns : s.len - 1 < n := by omega
      have h2 := (swap_SSInv h hpn hns).with_len (m := s.len - 1) (by omega)
      exact ih _ h2 (by simp only [swap_len]; omega)

theorem filter_SSInv {n : Nat} {s : SparseSet} (h : SSInv n s) (f : Nat → Bool) :
    SSInv n (s.filter f) :=
  filterAux_SSInv f s.len s h (le_refl _)

/-- Main loop lemma for `SparseSet::intersect`.  The loop preserves the
invariant and the length, never shrinks the membership predicate, and places
exactly the candidates that were members into the prefix `[0, new_size)`. -/
theorem intersectLoop_spec {n : Nat} :
    ∀ (cur : List Nat) (s : SparseSet) (ns : Nat), SSInv n s → ns ≤ s.len → cur.Nodup →
      (∀ k, k < ns → s.values.getD k 0 ∉ cur) →
      SSInv n (SparseSet.intersectLoop cur s ns).1 ∧
      (SparseSet.intersectLoop cur s ns).1.len = s.len ∧
      ns ≤ (SparseSet.intersectLoop cur s ns).2 ∧
      (SparseSet.intersectLoop cur s ns).2 ≤ s.len ∧
      (∀ w, (SparseSet.intersectLoop cur s ns).1.contains w = s.contains w) ∧
      (∀ w, w < n →
        ((SparseSet.intersectLoop cur s ns).1.positions.getD w 0 <
            (SparseSet.intersectLoop cur s ns).2 ↔
          (s.positions.getD w 0 < ns ∨ (w ∈ cur ∧ s.contains w = true)))) ∧
      (SparseSet.intersectLoop cur s ns).2 = ns + cur.countP (fun v => s.contains v) := by
  intro cur
  induction cur with
  | nil =>
    intro s ns h hns _ _
    refine ⟨h, rfl, le_refl _, hns, fun w => rfl, ?_, by simp [SparseSet.intersectLoop]⟩
    intro w _
    simp [SparseSet.intersectLoop]
  | cons v rest ih =>
    intro s ns h hns hnodup hplaced
    obtain ⟨hvl, hpl, hvb, hpb, hvp, hpv, hlen_le⟩ := h
    by_cases hc : s.contains v = true
    · -- the candidate is a member: swap it into slot `ns`
      obtain ⟨hvlen, hplt⟩ := (contains_eq s v).mp hc
      have hvn : v < n := by omega
      set pv := s.positions.getD v 0 with hpv_def
      have hvpv : s.values.getD pv 0 = v := hpv v hvn
      have hpv_ge : ns ≤ pv := by
        by_contra hcon
        push_neg at hcon
        have := hplaced pv hcon
        rw [hvpv] at this
        exact this (List.mem_cons_self _ _)
      have hns_lt : ns < s.len := Nat.lt_of_le_of_lt hpv_ge hplt
      have hpvn : pv < n := by omega
      have hnsn : ns < n := by omega
      have hInv : SSInv n s := ⟨hvl, hpl, hvb, hpb, hvp, hpv, hlen_le⟩
      have hInv2 : SSInv n (s.swap pv ns) := swap_SSInv hInv hpvn hnsn
      have hVg : ∀ k, (s.swap pv ns).values.getD k 0 =
          if k = ns then s.values.getD pv 0
          else if k = pv then s.values.getD ns 0
          else s.values.getD k 0 :=
        fun k => swap_values_getD s pv ns k (by omega) (by omega)
      have hPg : ∀ w, (s.swap pv ns).positions.getD w 0 =
          if w = s.values.getD ns 0 then pv
          else if w = s.values.getD pv 0 then ns
          else s.positions.getD w 0 :=
        fun w => swap_positions_getD s pv ns w (by
            have := hvb pv hpvn
            omega) (by
            have := hvb ns hnsn
            omega)
      have hswap_len : (s.swap pv ns).len = s.len := swap_len s pv ns
      -- membership is untouched by the swap (both slots are below `len`)
      have hcont2 : ∀ w, (s.swap pv ns).contains w = s.contains w := by
        intro w
        have hiff : ((s.swap pv ns).positions.getD w 0 < (s.swap pv ns).len ↔
            s.positions.getD w 0 < s.len) := by
          rw [hswap_len, hPg w]
          by_cases h1 : w = s.values.getD ns 0
          · rw [if_pos h1]
            have hw0 : s.positions.getD w 0 = ns := by
              rw [h1]
              exact hvp ns hnsn
            rw [hw0]
            exact iff_of_true hplt hns_lt
          · rw [if_neg h1]
            by_cases h2 : w = s.values.getD pv 0
            · rw [if_pos h2]
              have hw0 : s.positions.getD w 0 = pv := by
                rw [h2]
                exact hvp pv hpvn
              rw [hw0]
              exact iff_of_true hns_lt hplt
            · rw [if_neg h2]
        simp only [SparseSet.contains, swap_positions_length]
        rw [decide_eq_decide.mpr hiff]
      -- effect of the swap on the prefix predicate
      have hstep : ∀ w, w < n →
          ((s.swap pv ns).positions.getD w 0 < ns + 1 ↔
            (s.positions.getD w 0 < ns ∨ w = v)) := by
        intro w hw
        rw [hPg w]
        by_cases h1 : w = s.values.getD ns 0
        · rw [if_pos h1]
          have hw0 : s.positions.getD w 0 = ns := by
            rw [h1]
            exact hvp ns hnsn
          constructor
          · intro hlt
            have hpv_eq : pv = ns := by omega
            right
            rw [h1, ← hpv_eq, hvpv]
          · intro hor
            rcases hor with hlt | heqv
            · rw [hw0] at hlt
              exact absurd hlt (lt_irrefl ns)
            · have : pv = ns := by
                apply hInv.values_inj hpvn hnsn
                rw [hvpv, ← heqv, h1]
              omega
        · rw [if_neg h1]
          by_cases h2 : w = s.values.getD pv 0
          · rw [if_pos h2]
            constructor
            · intro _
              right
              rw [h2, hvpv]
            · intro _
              omega
          · rw [if_neg h2]
            have hwv : w ≠ v := by
              rw [← hvpv]
              exact h2
            constructor
            · intro hlt
              left
              rcases Nat.lt_or_ge (s.positions.getD w 0) ns with hlt2 | hge
              · exact hlt2
              · exfalso
                have heq : s.positions.getD w 0 = ns := by omega
                apply h1
                rw [← hpv w hw, heq]
            · intro hor
              rcases hor with hlt | heqv
              · omega
              · exact absurd heqv hwv
      -- recursive call
      have hplaced2 : ∀ k, k < ns + 1 → (s.swap pv ns).values.getD k 0 ∉ rest := by
        intro k hk
        rcases Nat.lt_or_ge k ns with hkns | hkns
        · have hkne1 : k ≠ ns := by omega
          have hkne2 : k ≠ pv := by omega
          rw [hVg k, if_neg hkne1, if_neg hkne2]
          intro hmem
          exact hplaced k hkns (List.mem_cons_of_mem _ hmem)
        · have hkeq : k = ns := by omega
          rw [hkeq, hVg ns, if_pos rfl, hvpv]
          exact (List.nodup_cons.mp hnodup).1
      have hrec := ih (s.swap pv ns) (ns + 1) hInv2 (by omega)
        (List.nodup_cons.mp hnodup).2 hplaced2
      have hloop : SparseSet.intersectLoop (v :: rest) s ns =
          SparseSet.intersectLoop rest (s.swap pv ns) (ns + 1) := by
        simp only [SparseSet.intersectLoop, hc, if_true, hpv_def]
      rw [hloop]
      obtain ⟨r1, r2, r3, r4, r5, r6, r7⟩ := hrec
      refine ⟨r1, by rw [r2, hswap_len], by omega, by rw [hswap_len] at r4; exact r4, ?_, ?_, ?_⟩
      · intro w
        rw [r5 w, hcont2 w]
      · intro w hw
        rw [r6 w hw, hstep w hw]
        constructor
        · rintro ((hlt | heqv) | ⟨hm, hcw⟩)
          · exact Or.inl hlt
          · refine Or.inr ⟨?_, ?_⟩
            · rw [heqv]
              exact List.mem_cons_self _ _
            · rw [heqv]
              exact hc
          · rw [hcont2 w] at hcw
            exact Or.inr ⟨List.mem_cons_of_mem _ hm, hcw⟩
        · rintro (hlt | ⟨hm, hcw⟩)
          · exact Or.inl (Or.inl hlt)
          · rcases List.mem_cons.mp hm with rfl | hm2
            · exact Or.inl (Or.inr rfl)
            · refine Or.inr ⟨hm2, ?_⟩
              rw [hcont2 w]
              exact hcw
      · have hcongr : rest.countP (fun u => (s.swap pv ns).contains u) =
            rest.countP (fun u => s.contains u) :=
          List.countP_congr fun u _ => by rw [hcont2 u]
        rw [r7, hcongr, List.countP_cons, hc, if_pos rfl]
        omega
    · -- the candidate is not a member: skip it
      have hloop : SparseSet.intersectLoop (v :: rest) s ns =
          SparseSet.intersectLoop rest s ns := by
        simp only [SparseSet.intersectLoop]
        rw [if_neg hc]
      rw [hloop]
      have hplaced2 : ∀ k, k < ns → s.values.getD k 0 ∉ rest := by
        intro k hk hmem
        exact hplaced k hk (List.mem_cons_of_mem _ hmem)
      have hrec := ih s ns ⟨hvl, hpl, hvb, hpb, hvp, hpv, hlen_le⟩ hns
        (List.nodup_cons.mp hnodup).2 hplaced2
      obtain ⟨r1, r2, r3, r4, r5, r6, r7⟩ := hrec
      refine ⟨r1, r2, r3, r4, r5, ?_, ?_⟩
      · intro w hw
        rw [r6 w hw]
        constructor
        · rintro (hlt | ⟨hm, hcw⟩)
          · exact Or.inl hlt
          · exact Or.inr ⟨List.mem_cons_of_mem _ hm, hcw⟩
        · rintro (hlt | ⟨hm, hcw⟩)
          · exact Or.inl hlt
          · rcases List.mem_cons.mp hm with rfl | hm2
            · exact absurd hcw hc
            · exact Or.inr ⟨hm2, hcw⟩
      · have hcf : s.contains v = false := by simpa using hc
        rw [r7, List.countP_cons, hcf, if_neg Bool.false_ne_true]
        omega

theorem mem_dedupAdj (l : List Nat) (x : Nat) : x ∈ dedupAdj l ↔ x ∈ l := by
  induction l with
  | nil => simp [dedupAdj]
  | cons a l ih =>
    cases l with
    | nil => simp [dedupAdj]
    | cons b rest =>
      by_cases hab : a = b
      · subst hab
        rw [dedupAdj, if_pos rfl, ih]
        constructor
        · intro hm
          exact List.mem_cons_of_mem _ hm
        · intro hm
          rcases List.mem_cons.mp hm with rfl | hm2
          · exact List.mem_cons_self _ _
          · exact hm2
      · rw [dedupAdj, if_neg hab]
        simp only [List.mem_cons] at ih ⊢
        rw [ih]

theorem nodup_dedupAdj : ∀ l : List Nat, List.Sorted (· ≤ ·) l → (dedupAdj l).Nodup := by
  intro l
  induction l with
  | nil =>
    intro _
    simp [dedupAdj]
  | cons a l ih =>
    intro hs
    cases l with
    | nil => simp [dedupAdj]
    | cons b rest =>
      have hs' : List.Sorted (· ≤ ·) (b :: rest) := hs.of_cons
      by_cases hab : a = b
      · subst hab
        rw [dedupAdj, if_pos rfl]
        exact ih hs'
      · rw [dedupAdj, if_neg hab]
        rw [List.nodup_cons]
        refine ⟨?_, ih hs'⟩
        intro hmem
        rw [mem_dedupAdj] at hmem
        have hle : ∀ x ∈ b :: rest, a ≤ x := (List.sorted_cons.mp hs).1
        have hble : ∀ x ∈ rest, b ≤ x := (List.sorted_cons.mp hs').1
        rcases List.mem_cons.mp hmem with heq | hmem2
        · exact hab heq
        · have h1 : b ≤ a := hble a hmem2
          have h2 : a ≤ b := hle b (List.mem_cons_self _ _)
          exact hab (Nat.le_antisymm h2 h1)

theorem mem_sortDedup (vals : List Nat) (x : Nat) : x ∈ sortDedup vals ↔ x ∈ vals := by
  rw [sortDedup, mem_dedupAdj]
  exact (List.perm_insertionSort _ vals).mem_iff

theorem nodup_sortDedup (vals : List Nat) : (sortDedup vals).Nodup :=
  nodup_dedupAdj _ (List.sorted_insertionSort _ vals)

/-- After `intersect`, membership is the conjunction of prior membership and
occurrence in the input. -/
theorem intersect_contains {n : Nat} {s : SparseSet} (h : SSInv n s) (vals : List Nat)
    (w : Nat) :
    (s.intersect vals).contains w = (s.contains w && decide (w ∈ vals)) := by
  have hloop := intersectLoop_spec (n := n) (sortDedup vals) s 0 h (Nat.zero_le _)
    (nodup_sortDedup vals) (by intro k hk; omega)
  obtain ⟨r1, -, -, -, -, r6, -⟩ := hloop
  have hpl_r : (SparseSet.intersectLoop (sortDedup vals) s 0).1.positions.length = n := r1.2.1
  have hpl_s : s.positions.length = n := h.2.1
  simp only [SparseSet.intersect, SparseSet.contains]
  rcases Nat.lt_or_ge w n with hw | hw
  · have hiff := r6 w hw
    have key : ((SparseSet.intersectLoop (sortDedup vals) s 0).1.positions.getD w 0 <
        (SparseSet.intersectLoop (sortDedup vals) s 0).2) ↔
        (s.positions.getD w 0 < s.len ∧ w ∈ vals) := by
      rw [hiff]
      constructor
      · rintro (h0 | ⟨hm, hcw⟩)
        · omega
        · exact ⟨((contains_eq s w).mp hcw).2, (mem_sortDedup vals w).mp hm⟩
      · rintro ⟨hA, hM⟩
        exact Or.inr ⟨(mem_sortDedup vals w).mpr hM,
          (contains_eq s w).mpr ⟨by omega, hA⟩⟩
    have l1 : decide (w < (SparseSet.intersectLoop (sortDedup vals) s 0).1.positions.length) =
        true := decide_eq_true (by omega)
    have r1d : decide (w < s.positions.length) = true := decide_eq_true (by omega)
    rw [l1, r1d, Bool.true_and, Bool.true_and]
    by_cases hA : s.positions.getD w 0 < s.len
    · by_cases hM : w ∈ vals
      · rw [decide_eq_true hA, decide_eq_true hM, decide_eq_true (key.mpr ⟨hA, hM⟩)]
        rfl
      · rw [decide_eq_true hA, decide_eq_false hM,
          decide_eq_false (fun hk => hM (key.mp hk).2)]
        rfl
    · rw [decide_eq_false hA, Bool.false_and,
        decide_eq_false (fun hk => hA (key.mp hk).1)]
  · have l1 : decide (w < (SparseSet.intersectLoop (sortDedup vals) s 0).1.positions.length) =
        false := decide_eq_false (by omega)
    have r1d : decide (w < s.positions.length) = false := decide_eq_false (by omega)
    rw [l1, r1d]
    simp

/-- After `intersect`, the length is the number of distinct input values that
were members. -/
theorem intersect_len {n : Nat} {s : SparseSet} (h : SSInv n s) (vals : List Nat) :
    (s.intersect vals).len = (sortDedup vals).countP (fun v => s.contains v) ∧
    (s.intersect vals).len =
      (vals.toFinset.filter (fun v => s.contains v = true)).card := by
  have hloop := intersectLoop_spec (n := n) (sortDedup vals) s 0 h (Nat.zero_le _)
    (nodup_sortDedup vals) (by intro k hk; omega)
  have hcount := hloop.2.2.2.2.2.2
  have hlen : (s.intersect vals).len = (sortDedup vals).countP (fun v => s.contains v) := by
    show (SparseSet.intersectLoop (sortDedup vals) s 0).2 = _
    rw [hcount]
    omega
  refine ⟨hlen, ?_⟩
  rw [hlen, List.countP_eq_length_filter]
  have hnd : ((sortDedup vals).filter (fun v => s.contains v)).Nodup :=
    (nodup_sortDedup vals).filter _
  rw [← List.toFinset_card_of_nodup hnd, List.toFinset_filter]
  congr 1
  apply Finset.ext
  intro x
  simp only [Finset.mem_filter, List.mem_toFinset, mem_sortDedup]

theorem intersect_SSInv {n : Nat} {s : SparseSet} (h : SSInv n s) (vals : List Nat) :
    SSInv n (s.intersect vals) := by
  have hloop := intersectLoop_spec (n := n) (sortDedup vals) s 0 h (Nat.zero_le _)
    (nodup_sortDedup vals) (by intro k hk; omega)
  obtain ⟨r1, r2, _, r4, _, _, _⟩ := hloop
  have hlen_le : s.len ≤ n := h.2.2.2.2.2.2
  exact r1.with_len (by omega)

/-! ### Sparse-set operations interleaved with the trail

For a `BacktrackableSparseSet`, the arrays live in non-backtrackable storage
and only `len` is snapshotted: `new_level` pushes the current `len`,
`backtrack` pops it.  (For a `NonBacktrackableSparseSet` the two trail calls
change nothing, which is the special case of sequences without `slevel`/
`sback`.) -/

inductive SSOp where
  | srem (v : Nat)
  | sfilter (f : Nat → Bool)
  | sinter (vals : List Nat)
  | slevel
  | sback

structure SSTrail where
  ss : SparseSet
  stack : List Nat

def ssStep (st : SSTrail) : SSOp → SSTrail
  | .srem v => { st with ss := st.ss.remove v }
  | .sfilter f => { st with ss := st.ss.filter f }
  | .sinter vals => { st with ss := st.ss.intersect vals }
  | .slevel => { st with stack := st.ss.len :: st.stack }
  | .sback =>
    match st.stack with
    | [] => st
    | l :: rest => { ss := { st.ss with len := l }, stack := rest }

def ssRun (st : SSTrail) (ops : List SSOp) : SSTrail :=
  ops.foldl ssStep st

def SSTInv (n : Nat) (st : SSTrail) : Prop :=
  SSInv n st.ss ∧ ∀ l ∈ st.stack, l ≤ n

theorem ssStep_SSTInv {n : Nat} {st : SSTrail} (h : SSTInv n st) (op : SSOp) :
    SSTInv n (ssStep st op) := by
  obtain ⟨hss, hstk⟩ := h
  cases op with
  | srem v => exact ⟨remove_SSInv hss v, hstk⟩
  | sfilter f => exact ⟨filter_SSInv hss f, hstk⟩
  | sinter vals => exact ⟨intersect_SSInv hss vals, hstk⟩
  | slevel =>
    refine ⟨hss, ?_⟩
    intro l hl
    rcases List.mem_cons.mp hl with rfl | hl2
    · exact hss.2.2.2.2.2.2
    · exact hstk l hl2
  | sback =>
    simp only [ssStep]
    cases hstack : st.stack with
    | nil => exact ⟨hss, hstk⟩
    | cons l rest =>
      refine ⟨hss.with_len (hstk l (by rw [hstack]; exact List.mem_cons_self _ _)), ?_⟩
      intro m hm
      exact hstk m (by rw [hstack]; exact List.mem_cons_of_mem _ hm)

theorem ssRun_SSTInv {n : Nat} {st : SSTrail} (h : SSTInv n st) (ops : List SSOp) :
    SSTInv n (ssRun st ops) := by
  induction ops generalizing st with
  | nil => exact h
  | cons op ops ih =>
    simp only [ssRun, List.foldl_cons]
    exact ih (ssStep_SSTInv h op)

/-- C2.  Starting from `SparseSet::new_full(builder, n)`, after any finite
sequence of `remove`/`filter`/`intersect` operations interleaved with
`new_level`/`backtrack`, for all `v < n` and `i < n`:
`values[positions[v]] = v`, `positions[values[i]] = i`, and
`contains(trail, v)` holds iff `positions[v] < len`. -/
theorem sparse_set_invariants (n : Nat) (ops : List SSOp) (v i : Nat)
    (hv : v < n) (hi : i < n) :
    let s := (ssRun ⟨SparseSet.new_full n, []⟩ ops).ss
    s.values.getD (s.positions.getD v 0) 0 = v ∧
    s.positions.getD (s.values.getD i 0) 0 = i ∧
    (s.contains v = true ↔ s.positions.getD v 0 < s.len) := by
  intro s
  have hinv : SSTInv n (ssRun ⟨SparseSet.new_full n, []⟩ ops) :=
    ssRun_SSTInv ⟨new_full_SSInv n, by intro l hl; simp at hl⟩ ops
  obtain ⟨⟨hvl, hpl, _, _, hvp, hpv, _⟩, _⟩ := hinv
  refine ⟨hpv v hv, hvp i hi, ?_⟩
  rw [contains_eq]
  constructor
  · intro hc
    exact hc.2
  · intro hc
    exact ⟨by rw [hpl]; exact hv, hc⟩

/-- Closed witness for C2 at `n = 3` after a removal, a level, an intersect
and a backtrack. -/
theorem sparse_set_invariants_witness :
    (2 < 3 ∧ 0 < 3) ∧
    (let s := (ssRun ⟨SparseSet.new_full 3, []⟩
        [SSOp.srem 1, SSOp.slevel, SSOp.sinter [0, 2, 5], SSOp.sback]).ss
     s.values.getD (s.positions.getD 2 0) 0 = 2 ∧
     s.positions.getD (s.values.getD 0 0) 0 = 0 ∧
     (s.contains 2 = true ↔ s.positions.getD 2 0 < s.len)) :=
  ⟨⟨by decide, by decide⟩,
    sparse_set_invariants 3 [SSOp.srem 1, SSOp.slevel, SSOp.sinter [0, 2, 5], SSOp.sback]
      2 0 (by decide) (by decide)⟩

/-- C3.  For a sparse set over universe `0..n` (any state satisfying the
representation invariant) and any materialized input list, after
`intersect(trail, vals)`: membership is prior membership conjoined with
occurrence in the input, and the length is the number of distinct input
values that were members before the call. -/
theorem sparse_set_intersect (n : Nat) (s : SparseSet) (vals : List Nat)
    (hInv : SSInv n s) :
    (∀ w, (s.intersect vals).contains w = (s.contains w && decide (w ∈ vals))) ∧
    (s.intersect vals).len =
      (vals.toFinset.filter (fun v => s.contains v = true)).card :=
  ⟨fun w => intersect_contains hInv vals w, (intersect_len hInv vals).2⟩

/-- Closed witness for C3: the fibonacci example from the crate docs at
`n = 10`. -/
theorem sparse_set_intersect_witness :
    SSInv 10 (SparseSet.new_full 10) ∧
    ((∀ w, ((SparseSet.new_full 10).intersect [0, 1, 1, 2, 3, 5, 8, 13]).contains w =
        ((SparseSet.new_full 10).contains w && decide (w ∈ [0, 1, 1, 2, 3, 5, 8, 13]))) ∧
      ((SparseSet.new_full 10).intersect [0, 1, 1, 2, 3, 5, 8, 13]).len =
        (([0, 1, 1, 2, 3, 5, 8, 13] : List Nat).toFinset.filter
          (fun v => (SparseSet.new_full 10).contains v = true)).card) :=
  ⟨new_full_SSInv 10,
    sparse_set_intersect 10 (SparseSet.new_full 10) [0, 1, 1, 2, 3, 5, 8, 13]
      (new_full_SSInv 10)⟩

/-! ## Linked-list arena (src/contrail-collections/src/linked_list.rs)

The arena holds three parallel arrays `prev`, `next`, `data`; the link
operations never touch `data`, so the model keeps the two link arrays.  A node
is its dense index.  Each operation below reproduces the Rust statement order
exactly: in `self.prev(trail).set_next(trail, self.next(trail))` both reads
happen before the write, and the second splice line reads the state already
modified by the first. -/

structure LinkedList where
  prev : List Nat
  next : List Nat

/-- `LinkedListArena::new` with `n` nodes: every node linked to itself. -/
def LinkedList.new (n : Nat) : LinkedList :=
  { prev := List.range n, next := List.range n }

/-- `LinkedListNode::next` (as an index). -/
def getNext (s : LinkedList) (i : Nat) : Nat := s.next.getD i 0

/-- `LinkedListNode::prev` (as an index). -/
def getPrev (s : LinkedList) (i : Nat) : Nat := s.prev.getD i 0

/-- `LinkedListNode::set_next`. -/
def setNext (s : LinkedList) (i j : Nat) : LinkedList :=
  { s with next := s.next.set i j }

/-- `LinkedListNode::set_prev`. -/
def setPrev (s : LinkedList) (i j : Nat) : LinkedList :=
  { s with prev := s.prev.set i j }

/-- `LinkedListNode::unlink`. -/
def unlink (s : LinkedList) (i : Nat) : LinkedList :=
  let s1 := setNext s (getPrev s i) (getNext s i)
  let s2 := setPrev s1 (getNext s1 i) (getPrev s1 i)
  let s3 := setPrev s2 i i
  setNext s3 i i

/-- `LinkedListNode::insert_after(self = i, node = a)`. -/
def insertAfter (s : LinkedList) (i a : Nat) : LinkedList :=
  let s1 := setNext s (getPrev s i) (getNext s i)
  let s2 := setPrev s1 (getNext s1 i) (getPrev s1 i)
  let nxt := getNext s2 a
  let s3 := setNext s2 i nxt
  let s4 := setPrev s3 nxt i
  let s5 := setNext s4 a i
  setPrev s5 i a

/-- `LinkedListNode::insert_before(self = i, node = a)`. -/
def insertBefore (s : LinkedList) (i a : Nat) : LinkedList :=
  let s1 := setNext s (getPrev s i) (getNext s i)
  let s2 := setPrev s1 (getNext s1 i) (getPrev s1 i)
  let prv := getPrev s2 a
  let s3 := setNext s2 prv i
  let s4 := setPrev s3 i prv
  let s5 := setNext s4 i a
  setPrev s5 a i

/-- The arena invariant: both arrays have length `n`, all links are in range,
and `prev` is the exact inverse of `next`. -/
def LLInv (n : Nat) (s : LinkedList) : Prop :=
  s.prev.length = n ∧ s.next.length = n ∧
  (∀ i, i < n → getNext s i < n) ∧
  (∀ i, i < n → getPrev s i < n) ∧
  (∀ i, i < n → getPrev s (getNext s i) = i) ∧
  (∀ i, i < n → getNext s (getPrev s i) = i)

theorem new_LLInv (n : Nat) : LLInv n (LinkedList.new n) := by
  have hr : ∀ k, k < n → (List.range n).getD k 0 = k := by
    intro k hk
    rw [List.getD_eq_getElem _ _ (by simpa using hk)]
    simp
  refine ⟨by simp [LinkedList.new], by simp [LinkedList.new], ?_, ?_, ?_, ?_⟩
  · intro i hi
    show (List.range n).getD i 0 < n
    rw [hr i hi]
    exact hi
  · intro i hi
    show (List.range n).getD i 0 < n
    rw [hr i hi]
    exact hi
  · intro i hi
    show (List.range n).getD ((List.range n).getD i 0) 0 = i
    rw [hr i hi, hr i hi]
  · intro i hi
    show (List.range n).getD ((List.range n).getD i 0) 0 = i
    rw [hr i hi, hr i hi]

/-- Reading `self.next` after the first splice write still yields the original
`next[i]` (the write targets `prev[i]`, and when `prev[i] = i` it writes the
unchanged value back). -/
theorem first_splice_read (s : LinkedList) (i : Nat) (hi : i < s.next.length) :
    (s.next.set (s.prev.getD i 0) (s.next.getD i 0)).getD i 0 = s.next.getD i 0 := by
  by_cases hpi : s.prev.getD i 0 = i
  · rw [hpi]
    exact getD_set_self _ _ _ _ hi
  · exact getD_set_ne _ _ _ hpi

theorem unlink_eq (s : LinkedList) (i : Nat) (hi : i < s.next.length) :
    unlink s i =
      { prev := (s.prev.set (getNext s i) (getPrev s i)).set i i,
        next := (s.next.set (getPrev s i) (getNext s i)).set i i } := by
  simp only [unlink, setNext, setPrev, getNext, getPrev]
  rw [first_splice_read s i hi]

theorem insertAfter_eq (s : LinkedList) (i a : Nat) (hi : i < s.next.length) :
    insertAfter s i a =
      { prev := ((s.prev.set (getNext s i) (getPrev s i)).set
          ((s.next.set (getPrev s i) (getNext s i)).getD a 0) i).set i a,
        next := ((s.next.set (getPrev s i) (getNext s i)).set i
          ((s.next.set (getPrev s i) (getNext s i)).getD a 0)).set a i } := by
  simp only [insertAfter, setNext, setPrev, getNext, getPrev]
  rw [first_splice_read s i hi]

theorem insertBefore_eq (s : LinkedList) (i a : Nat) (hi : i < s.next.length) :
    insertBefore s i a =
      { prev := ((s.prev.set (getNext s i) (getPrev s i)).set i
          ((s.prev.set (getNext s i) (getPrev s i)).getD a 0)).set a i,
        next := ((s.next.set (getPrev s i) (getNext s i)).set
          ((s.prev.set (getNext s i) (getPrev s i)).getD a 0) i).set i a } := by
  simp only [insertBefore, setNext, setPrev, getNext, getPrev]
  rw [first_splice_read s i hi]

theorem unlink_getNext {n : Nat} {s : LinkedList} (h : LLInv n s) {i : Nat} (hi : i < n)
    (k : Nat) :
    getNext (unlink s i) k =
      if k = i then i
      else if k = getPrev s i then getNext s i
      else getNext s k := by
  obtain ⟨hpl, hnl, hnb, hpb, _, _⟩ := h
  rw [unlink_eq s i (by omega)]
  show ((s.next.set (getPrev s i) (getNext s i)).set i i).getD k 0 = _
  by_cases hki : k = i
  · rw [if_pos hki, hki, getD_set_self _ _ _ _ (by simp only [List.length_set]; omega)]
  · rw [if_neg hki, getD_set_ne _ _ _ (fun hh => hki hh.symm)]
    by_cases hkp : k = getPrev s i
    · rw [if_pos hkp, hkp, getD_set_self _ _ _ _ (by rw [hnl]; exact hpb i hi)]
    · rw [if_neg hkp, getD_set_ne _ _ _ (fun hh => hkp hh.symm)]
      rfl

theorem unlink_getPrev {n : Nat} {s : LinkedList} (h : LLInv n s) {i : Nat} (hi : i < n)
    (w : Nat) :
    getPrev (unlink s i) w =
      if w = i then i
      else if w = getNext s i then getPrev s i
      else getPrev s w := by
  obtain ⟨hpl, hnl, hnb, hpb, _, _⟩ := h
  rw [unlink_eq s i (by omega)]
  show ((s.prev.set (getNext s i) (getPrev s i)).set i i).getD w 0 = _
  by_cases hwi : w = i
  · rw [if_pos hwi, hwi, getD_set_self _ _ _ _ (by simp only [List.length_set]; omega)]
  · rw [if_neg hwi, getD_set_ne _ _ _ (fun hh => hwi hh.symm)]
    by_cases hwq : w = getNext s i
    · rw [if_pos hwq, hwq, getD_set_self _ _ _ _ (by rw [hpl]; exact hnb i hi)]
    · rw [if_neg hwq, getD_set_ne _ _ _ (fun hh => hwq hh.symm)]
      rfl

/-- The value `node.next(trail)` read during `insert_after`, resolved against
the original state. -/
theorem afterNxt_eq {n : Nat} {s : LinkedList} (h : LLInv n s) {i a : Nat}
    (_hi : i < n) (ha : a < n) :
    (s.next.set (getPrev s i) (getNext s i)).getD a 0 =
      if getPrev s i = a then getNext s i else getNext s a := by
  obtain ⟨hpl, hnl, _, _, _, _⟩ := h
  by_cases hpa : getPrev s i = a
  · rw [if_pos hpa, hpa, getD_set_self _ _ _ _ (by omega)]
  · rw [if_neg hpa]
    exact getD_set_ne _ _ _ hpa

theorem insertAfter_getNext {n : Nat} {s : LinkedList} (h : LLInv n s) {i a : Nat}
    (hi : i < n) (ha : a < n) (k : Nat) :
    getNext (insertAfter s i a) k =
      if k = a then i
      else if k = i then (if getPrev s i = a then getNext s i else getNext s a)
      else if k = getPrev s i then getNext s i
      else getNext s k := by
  have hnxt := afterNxt_eq h hi ha
  obtain ⟨hpl, hnl, hnb, hpb, _, _⟩ := h
  rw [insertAfter_eq s i a (by omega)]
  show (((s.next.set (getPrev s i) (getNext s i)).set i
      ((s.next.set (getPrev s i) (getNext s i)).getD a 0)).set a i).getD k 0 = _
  by_cases hka : k = a
  · rw [if_pos hka, hka, getD_set_self _ _ _ _ (by simp only [List.length_set]; omega)]
  · rw [if_neg hka, getD_set_ne _ _ _ (fun hh => hka hh.symm)]
    by_cases hki : k = i
    · rw [if_pos hki, hki, getD_set_self _ _ _ _ (by simp only [List.length_set]; omega)]
      exact hnxt
    · rw [if_neg hki, getD_set_ne _ _ _ (fun hh => hki hh.symm)]
      by_cases hkp : k = getPrev s i
      · rw [if_pos hkp, hkp, getD_set_self _ _ _ _ (by rw [hnl]; exact hpb i hi)]
      · rw [if_neg hkp, getD_set_ne _ _ _ (fun hh => hkp hh.symm)]
        rfl

theorem insertAfter_getPrev {n : Nat} {s : LinkedList} (h : LLInv n s) {i a : Nat}
    (hi : i < n) (ha : a < n) (w : Nat) :
    getPrev (insertAfter s i a) w =
      if w = i then a
      else if w = (if getPrev s i = a then getNext s i else getNext s a) then i
      else if w = getNext s i then getPrev s i
      else getPrev s w := by
  have hnxt := afterNxt_eq h hi ha
  obtain ⟨hpl, hnl, hnb, hpb, _, _⟩ := h
  rw [insertAfter_eq s i a (by omega)]
  show (((s.prev.set (getNext s i) (getPrev s i)).set
      ((s.next.set (getPrev s i) (getNext s i)).getD a 0) i).set i a).getD w 0 = _
  rw [hnxt]
  by_cases hwi : w = i
  · rw [if_pos hwi, hwi, getD_set_self _ _ _ _ (by simp only [List.length_set]; omega)]
  · rw [if_neg hwi, getD_set_ne _ _ _ (fun hh => hwi hh.symm)]
    by_cases hwm : w = (if getPrev s i = a then getNext s i else getNext s a)
    · rw [if_pos hwm, hwm]
      refine getD_set_self _ _ _ _ ?_
      simp only [List.length_set]
      rw [hpl]
      split
      · exact hnb i hi
      · exact hnb a ha
    · rw [if_neg hwm, getD_set_ne _ _ _ (fun hh => hwm hh.symm)]
      by_cases hwq : w = getNext s i
      · rw [if_pos hwq, hwq, getD_set_self _ _ _ _ (by rw [hpl]; exact hnb i hi)]
      · rw [if_neg hwq, getD_set_ne _ _ _ (fun hh => hwq hh.symm)]
        rfl

/-- The value `node.prev(trail)` read during `insert_before`, resolved against
the original state. -/
theorem beforePrv_eq {n : Nat} {s : LinkedList} (h : LLInv n s) {i a : Nat}
    (_hi : i < n) (ha : a < n) :
    (s.prev.set (getNext s i) (getPrev s i)).getD a 0 =
      if getNext s i = a then getPrev s i else getPrev s a := by
  obtain ⟨hpl, hnl, _, _, _, _⟩ := h
  by_cases hqa : getNext s i = a
  · rw [if_pos hqa, hqa, getD_set_self _ _ _ _ (by omega)]
  · rw [if_neg hqa]
    exact getD_set_ne _ _ _ hqa

theorem insertBefore_getNext {n : Nat} {s : LinkedList} (h : LLInv n s) {i a : Nat}
    (hi : i < n) (ha : a < n) (k : Nat) :
    getNext (insertBefore s i a) k =
      if k = i then a
      else if k = (if getNext s i = a then getPrev s i else getPrev s a) then i
      else if k = getPrev s i then getNext s i
      else getNext s k := by
  have hprv := beforePrv_eq h hi ha
  obtain ⟨hpl, hnl, hnb, hpb, _, _⟩ := h
  rw [insertBefore_eq s i a (by omega)]
  show (((s.next.set (getPrev s i) (getNext s i)).set
      ((s.prev.set (getNext s i) (getPrev s i)).getD a 0) i).set i a).getD k 0 = _
  rw [hprv]
  by_cases hki : k = i
  · rw [if_pos hki, hki, getD_set_self _ _ _ _ (by simp only [List.length_set]; omega)]
  · rw [if_neg hki, getD_set_ne _ _ _ (fun hh => hki hh.symm)]
    by_cases hkm : k = (if getNext s i = a then getPrev s i else getPrev s a)
    · rw [if_pos hkm, hkm]
      refine getD_set_self _ _ _ _ ?_
      simp only [List.length_set]
      rw [hnl]
      split
      · exact hpb i hi
      · exact hpb a ha
    · rw [if_neg hkm, getD_set_ne _ _ _ (fun hh => hkm hh.symm)]
      by_cases hkp : k = getPrev s i
      · rw [if_pos hkp, hkp, getD_set_self _ _ _ _ (by rw [hnl]; exact hpb i hi)]
      · rw [if_neg hkp, getD_set_ne _ _ _ (fun hh => hkp hh.symm)]
        rfl

theorem insertBefore_getPrev {n : Nat} {s : LinkedList} (h : LLInv n s) {i a : Nat}
    (hi : i < n) (ha : a < n) (w : Nat) :
    getPrev (insertBefore s i a) w =
      if w = a then i
      else if w = i then (if getNext s i = a then getPrev s i else getPrev s a)
      else if w = getNext s i then getPrev s i
      else getPrev s w := by
  have hprv := beforePrv_eq h hi ha
  obtain ⟨hpl, hnl, hnb, hpb, _, _⟩ := h
  rw [insertBefore_eq s i a (by omega)]
  show (((s.prev.set (getNext s i) (getPrev s i)).set i
      ((s.prev.set (getNext s i) (getPrev s i)).getD a 0)).set a i).getD w 0 = _
  rw [hprv]
  by_cases hwa : w = a
  · rw [if_pos hwa, hwa, getD_set_self _ _ _ _ (by simp only [List.length_set]; omega)]
  · rw [if_neg hwa, getD_set_ne _ _ _ (fun hh => hwa hh.symm)]
    by_cases hwi : w = i
    · rw [if_pos hwi, hwi, getD_set_self _ _ _ _ (by simp only [List.length_set]; omega)]
    · rw [if_neg hwi, getD_set_ne _ _ _ (fun hh => hwi hh.symm)]
      by_cases hwq : w = getNext s i
      · rw [if_pos hwq, hwq, getD_set_self _ _ _ _ (by rw [hpl]; exact hnb i hi)]
      · rw [if_neg hwq, getD_set_ne _ _ _ (fun hh => hwq hh.symm)]
        rfl

theorem LLInv.next_inj {n : Nat} {s : LinkedList} (h : LLInv n s) {x y : Nat}
    (hx : x < n) (hy : y < n) (heq : getNext s x = getNext s y) : x = y := by
  have h1 := h.2.2.2.2.1 x hx
  have h2 := h.2.2.2.2.1 y hy
  rw [heq] at h1
  exact h1.symm.trans h2

theorem unlink_LLInv {n : Nat} {s : LinkedList} (h : LLInv n s) {i : Nat} (hi : i < n) :
    LLInv n (unlink s i) := by
  have hN := unlink_getNext h hi
  have hP := unlink_getPrev h hi
  obtain ⟨hpl, hnl, hnb, hpb, hvp, hvn⟩ := h
  have hpq : getNext s (getPrev s i) = i := hvn i hi
  have hqp : getPrev s (getNext s i) = i := hvp i hi
  refine ⟨?_, ?_, ?_, ?_, ?_, ?_⟩
  · rw [unlink_eq s i (by omega)]
    simp only [List.length_set]
    exact hpl
  · rw [unlink_eq s i (by omega)]
    simp only [List.length_set]
    exact hnl
  · intro k hk
    rw [hN k]
    split
    · omega
    · split
      · exact hnb i hi
      · exact hnb k hk
  · intro w hw
    rw [hP w]
    split
    · omega
    · split
      · exact hpb i hi
      · exact hpb w hw
  · intro k hk
    rw [hN k]
    by_cases hki : k = i
    · rw [if_pos hki, hP i, if_pos rfl, hki]
    · rw [if_neg hki]
      by_cases hkp : k = getPrev s i
      · rw [if_pos hkp, hP (getNext s i)]
        have hqi : getNext s i ≠ i := by
          intro hqi
          apply hki
          have h2 := hqp
          rw [hqi] at h2
          exact hkp.trans h2
        rw [if_neg hqi, if_pos rfl, hkp]
      · rw [if_neg hkp, hP (getNext s k)]
        have h1 : getNext s k ≠ i := by
          intro hh
          apply hkp
          rw [← hvp k hk, hh]
        have h2 : getNext s k ≠ getNext s i := by
          intro hh
          apply hki
          have := hvp k hk
          rw [hh, hqp] at this
          exact this.symm
        rw [if_neg h1, if_neg h2]
        exact hvp k hk
  · intro w hw
    rw [hP w]
    by_cases hwi : w = i
    · rw [if_pos hwi, hN i, if_pos rfl, hwi]
    · rw [if_neg hwi]
      by_cases hwq : w = getNext s i
      · rw [if_pos hwq, hN (getPrev s i)]
        have hpi : getPrev s i ≠ i := by
          intro hpi
          apply hwi
          have h2 := hpq
          rw [hpi] at h2
          exact hwq.trans h2
        rw [if_neg hpi, if_pos rfl, hwq]
      · rw [if_neg hwq, hN (getPrev s w)]
        have h1 : getPrev s w ≠ i := by
          intro hh
          apply hwq
          rw [← hvn w hw, hh]
        have h2 : getPrev s w ≠ getPrev s i := by
          intro hh
          apply hwi
          have := hvn w hw
          rw [hh, hpq] at this
          exact this.symm
        rw [if_neg h1, if_neg h2]
        exact hvn w hw

theorem insertAfter_LLInv {n : Nat} {s : LinkedList} (h : LLInv n s) {i a : Nat}
    (hi : i < n) (ha : a < n) (hia : i ≠ a) : LLInv n (insertAfter s i a) := by
  have hN := insertAfter_getNext h hi ha
  have hP := insertAfter_getPrev h hi ha
  obtain ⟨hpl, hnl, hnb, hpb, hvp, hvn⟩ := h
  have hfull : LLInv n s := ⟨hpl, hnl, hnb, hpb, hvp, hvn⟩
  have hpq : getNext s (getPrev s i) = i := hvn i hi
  have hqp : getPrev s (getNext s i) = i := hvp i hi
  -- the spliced-in successor
  have hmn : (if getPrev s i = a then getNext s i else getNext s a) < n := by
    split
    · exact hnb i hi
    · exact hnb a ha
  have hmi : (if getPrev s i = a then getNext s i else getNext s a) ≠ i := by
    split
    · rename_i hpa
      intro hqi
      rw [hqi] at hqp
      apply hia
      rw [← hpa, hqp]
    · rename_i hpa
      intro hmi2
      apply hpa
      rw [← hvp a ha, hmi2]
  refine ⟨?_, ?_, ?_, ?_, ?_, ?_⟩
  · rw [insertAfter_eq s i a (by omega)]
    simp only [List.length_set]
    exact hpl
  · rw [insertAfter_eq s i a (by omega)]
    simp only [List.length_set]
    exact hnl
  · intro k hk
    rw [hN k]
    by_cases h1 : k = a
    · rw [if_pos h1]
      omega
    · rw [if_neg h1]
      by_cases h2 : k = i
      · rw [if_pos h2]
        exact hmn
      · rw [if_neg h2]
        by_cases h3 : k = getPrev s i
        · rw [if_pos h3]
          exact hnb i hi
        · rw [if_neg h3]
          exact hnb k hk
  · intro w hw
    rw [hP w]
    by_cases h1 : w = i
    · rw [if_pos h1]
      omega
    · rw [if_neg h1]
      by_cases h2 : w = (if getPrev s i = a then getNext s i else getNext s a)
      · rw [if_pos h2]
        omega
      · rw [if_neg h2]
        by_cases h3 : w = getNext s i
        · rw [if_pos h3]
          exact hpb i hi
        · rw [if_neg h3]
          exact hpb w hw
  · intro k hk
    rw [hN k]
    by_cases hka : k = a
    · rw [if_pos hka, hP i, if_pos rfl, hka]
    · rw [if_neg hka]
      by_cases hki : k = i
      · rw [if_pos hki,
          hP (if getPrev s i = a then getNext s i else getNext s a),
          if_neg hmi, if_pos rfl, hki]
      · rw [if_neg hki]
        by_cases hkp : k = getPrev s i
        · rw [if_pos hkp, hP (getNext s i)]
          have hpi : getPrev s i ≠ i := fun hpi => hki (hkp.trans hpi)
          have hqi : getNext s i ≠ i := by
            intro hqi
            apply hpi
            have h2 := hqp
            rw [hqi] at h2
            exact h2
          have hqm : getNext s i ≠
              (if getPrev s i = a then getNext s i else getNext s a) := by
            have hpa : getPrev s i ≠ a := fun hpa => hka (hkp.trans hpa)
            rw [if_neg hpa]
            intro hqna
            apply hia
            have := hvp a ha
            rw [← hqna, hqp] at this
            exact this
          rw [if_neg hqi, if_neg hqm, if_pos rfl, hkp]
        · rw [if_neg hkp, hP (getNext s k)]
          have hui : getNext s k ≠ i := by
            intro hh
            apply hkp
            rw [← hvp k hk, hh]
          have hum : getNext s k ≠
              (if getPrev s i = a then getNext s i else getNext s a) := by
            split
            · rename_i hpa
              intro huq
              apply hki
              have h1 := hvp k hk
              rw [huq] at h1
              exact h1.symm.trans hqp
            · rename_i hpa
              intro hueq
              exact hka (hfull.next_inj hk ha hueq)
          have huq : getNext s k ≠ getNext s i := by
            intro huq
            apply hki
            have h1 := hvp k hk
            rw [huq] at h1
            exact h1.symm.trans hqp
          rw [if_neg hui, if_neg hum, if_neg huq]
          exact hvp k hk
  · intro w hw
    rw [hP w]
    by_cases hwi : w = i
    · rw [if_pos hwi, hN a, if_pos rfl, hwi]
    · rw [if_neg hwi]
      by_cases hwm : w = (if getPrev s i = a then getNext s i else getNext s a)
      · rw [if_pos hwm, hN i, if_neg hia, if_pos rfl, hwm]
      · rw [if_neg hwm]
        by_cases hwq : w = getNext s i
        · rw [if_pos hwq, hN (getPrev s i)]
          have hpa : getPrev s i ≠ a := by
            intro hpa
            apply hwm
            rw [if_pos hpa, hwq]
          have hpi : getPrev s i ≠ i := by
            intro hpi
            apply hwi
            have h2 := hpq
            rw [hpi] at h2
            exact hwq.trans h2
          rw [if_neg hpa, if_neg hpi, if_pos rfl, hwq]
        · rw [if_neg hwq, hN (getPrev s w)]
          have hua : getPrev s w ≠ a := by
            intro hua
            have h1 := hvn w hw
            rw [hua] at h1
            by_cases hpa : getPrev s i = a
            · apply hwi
              rw [← h1, ← hpa, hpq]
            · apply hwm
              rw [if_neg hpa]
              exact h1.symm
          have hui : getPrev s w ≠ i := by
            intro hui
            apply hwq
            rw [← hvn w hw, hui]
          have hup : getPrev s w ≠ getPrev s i := by
            intro hup
            apply hwi
            have h1 := hvn w hw
            rw [hup, hpq] at h1
            exact h1.symm
          rw [if_neg hua, if_neg hui, if_neg hup]
          exact hvn w hw

theorem insertBefore_LLInv {n : Nat} {s : LinkedList} (h : LLInv n s) {i a : Nat}
    (hi : i < n) (ha : a < n) (hia : i ≠ a) : LLInv n (insertBefore s i a) := by
  have hN := insertBefore_getNext h hi ha
  have hP := insertBefore_getPrev h hi ha
  obtain ⟨hpl, hnl, hnb, hpb, hvp, hvn⟩ := h
  have hpq : getNext s (getPrev s i) = i := hvn i hi
  have hqp : getPrev s (getNext s i) = i := hvp i hi
  -- the spliced-in predecessor
  have hmn : (if getNext s i = a then getPrev s i else getPrev s a) < n := by
    split
    · exact hpb i hi
    · exact hpb a ha
  have hmi : (if getNext s i = a then getPrev s i else getPrev s a) ≠ i := by
    split
    · rename_i hqa
      intro hpi
      rw [hpi] at hpq
      apply hia
      rw [← hqa, hpq]
    · rename_i hqa
      intro hmi2
      apply hqa
      rw [← hvn a ha, hmi2]
  refine ⟨?_, ?_, ?_, ?_, ?_, ?_⟩
  · rw [insertBefore_eq s i a (by omega)]
    simp only [List.length_set]
    exact hpl
  · rw [insertBefore_eq s i a (by omega)]
    simp only [List.length_set]
    exact hnl
  · intro k hk
    rw [hN k]
    by_cases h1 : k = i
    · rw [if_pos h1]
      omega
    · rw [if_neg h1]
      by_cases h2 : k = (if getNext s i = a then getPrev s i else getPrev s a)
      · rw [if_pos h2]
        omega
      · rw [if_neg h2]
        by_cases h3 : k = getPrev s i
        · rw [if_pos h3]
          exact hnb i hi
        · rw [if_neg h3]
          exact hnb k hk
  · intro w hw
    rw [hP w]
    by_cases h1 : w = a
    · rw [if_pos h1]
      omega
    · rw [if_neg h1]
      by_cases h2 : w = i
      · rw [if_pos h2]
        exact hmn
      · rw [if_neg h2]
        by_cases h3 : w = getNext s i
        · rw [if_pos h3]
          exact hpb i hi
        · rw [if_neg h3]
          exact hpb w hw
  · intro k hk
    rw [hN k]
    by_cases hki : k = i
    · rw [if_pos hki, hP a, if_pos rfl, hki]
    · rw [if_neg hki]
      by_cases hkm : k = (if getNext s i = a then getPrev s i else getPrev s a)
      · rw [if_pos hkm, hP i, if_neg hia, if_pos rfl, hkm]
      · rw [if_neg hkm]
        by_cases hkp : k = getPrev s i
        · rw [if_pos hkp, hP (getNext s i)]
          have hqa : getNext s i ≠ a := by
            intro hqa
            apply hkm
            rw [if_pos hqa, hkp]
          have hqi : getNext s i ≠ i := by
            intro hqi
            apply hki
            have h2 := hqp
            rw [hqi] at h2
            exact hkp.trans h2
          rw [if_neg hqa, if_neg hqi, if_pos rfl, hkp]
        · rw [if_neg hkp, hP (getNext s k)]
          have hua : getNext s k ≠ a := by
            intro hua
            have h1 := hvp k hk
            rw [hua] at h1
            by_cases hqa : getNext s i = a
            · apply hki
              rw [← h1, ← hqa, hqp]
            · apply hkm
              rw [if_neg hqa]
              exact h1.symm
          have hui : getNext s k ≠ i := by
            intro hui
            apply hkp
            rw [← hvp k hk, hui]
          have huq : getNext s k ≠ getNext s i := by
            intro huq
            apply hki
            have h1 := hvp k hk
            rw [huq, hqp] at h1
            exact h1.symm
          rw [if_neg hua, if_neg hui, if_neg huq]
          exact hvp k hk
  · intro w hw
    rw [hP w]
    by_cases hwa : w = a
    · rw [if_pos hwa, hN i, if_pos rfl, hwa]
    · rw [if_neg hwa]
      by_cases hwi : w = i
      · rw [if_pos hwi,
          hN (if getNext s i = a then getPrev s i else getPrev s a),
          if_neg hmi, if_pos rfl, hwi]
      · rw [if_neg hwi]
        by_cases hwq : w = getNext s i
        · rw [if_pos hwq, hN (getPrev s i)]
          have hpi : getPrev s i ≠ i := by
            intro hpi
            apply hwi
            have h2 := hpq
            rw [hpi] at h2
            exact hwq.trans h2
          have hpm : getPrev s i ≠
              (if getNext s i = a then getPrev s i else getPrev s a) := by
            have hqa : getNext s i ≠ a := by
              intro hqa
              apply hwa
              rw [hwq, hqa]
            rw [if_neg hqa]
            intro hpa
            apply hia
            have h1 := hpq
            rw [hpa] at h1
            exact h1.symm.trans (hvn a ha)
          rw [if_neg hpi, if_neg hpm, if_pos rfl, hwq]
        · rw [if_neg hwq, hN (getPrev s w)]
          have hui : getPrev s w ≠ i := by
            intro hui
            apply hwq
            rw [← hvn w hw, hui]
          have hum : getPrev s w ≠
              (if getNext s i = a then getPrev s i else getPrev s a) := by
            split
            · rename_i hqa
              intro hup
              apply hwi
              have h1 := hvn w hw
              rw [hup, hpq] at h1
              exact h1.symm
            · rename_i hqa
              intro hupa
              apply hwa
              have h1 := hvn w hw
              rw [hupa, hvn a ha] at h1
              exact h1.symm
          have hup : getPrev s w ≠ getPrev s i := by
            intro hup
            apply hwi
            have h1 := hvn w hw
            rw [hup, hpq] at h1
            exact h1.symm
          rw [if_neg hui, if_neg hum, if_neg hup]
          exact hvn w hw

/-- One linked-list operation: `unlink` or an insertion relative to an anchor
node from the same arena. -/
inductive LLOp where
  | lunlink (i : Nat)
  | lafter (i node : Nat)
  | lbefore (i node : Nat)

def llStep (s : LinkedList) : LLOp → LinkedList
  | .lunlink i => unlink s i
  | .lafter i a => insertAfter s i a
  | .lbefore i a => insertBefore s i a

def llRun (s : LinkedList) (ops : List LLOp) : LinkedList :=
  ops.foldl llStep s

/-- Legality for the amended claim: node indices are in range, and an
insertion's anchor differs from the moved node. -/
def LLOpLegal (n : Nat) : LLOp → Prop
  | .lunlink i => i < n
  | .lafter i a => i < n ∧ a < n ∧ i ≠ a
  | .lbefore i a => i < n ∧ a < n ∧ i ≠ a

theorem llRun_LLInv {n : Nat} {s : LinkedList} (h : LLInv n s) (ops : List LLOp)
    (hleg : ∀ op ∈ ops, LLOpLegal n op) : LLInv n (llRun s ops) := by
  induction ops generalizing s with
  | nil => exact h
  | cons op ops ih =>
    simp only [llRun, List.foldl_cons]
    have hop : LLOpLegal n op := hleg op (List.mem_cons_self _ _)
    have hrest : ∀ o ∈ ops, LLOpLegal n o := fun o ho => hleg o (List.mem_cons_of_mem _ ho)
    refine ih ?_ hrest
    cases op with
    | lunlink i => exact unlink_LLInv h hop
    | lafter i a => exact insertAfter_LLInv h hop.1 hop.2.1 hop.2.2
    | lbefore i a => exact insertBefore_LLInv h hop.1 hop.2.1 hop.2.2

/-- Counterexample to C5 as stated: on a 2-node arena, make the ring
`0 <-> 1` and then call `insert_after` with the node as its own anchor.  The
inverse-link invariant breaks: `prev[next[1]] = 0`, not `1`. -/
theorem linked_list_invariants_counterexample :
    getPrev (llRun (LinkedList.new 2) [LLOp.lafter 1 0, LLOp.lafter 0 0])
        (getNext (llRun (LinkedList.new 2) [LLOp.lafter 1 0, LLOp.lafter 0 0]) 1) ≠ 1 := by
  decide

/-- C5 (amended).  For a linked-list arena with `n` nodes and any finite
sequence of `unlink` / `insert_after` / `insert_before` operations whose node
indices are in range and whose insertions use an anchor different from the
moved node, afterwards `prev[next[i]] = i` and `next[prev[i]] = i` for all
`i < n`.  (With a node as its own insertion anchor the code corrupts the
links, see the counterexample.) -/
theorem linked_list_invariants (n : Nat) (ops : List LLOp)
    (hleg : ∀ op ∈ ops, LLOpLegal n op) (i : Nat) (hi : i < n) :
    getPrev (llRun (LinkedList.new n) ops) (getNext (llRun (LinkedList.new n) ops) i) = i ∧
    getNext (llRun (LinkedList.new n) ops) (getPrev (llRun (LinkedList.new n) ops) i) = i := by
  have h := llRun_LLInv (new_LLInv n) ops hleg
  exact ⟨h.2.2.2.2.1 i hi, h.2.2.2.2.2 i hi⟩

/-- Closed witness for C5 (amended): a ring of three built by two insertions,
then an unlink. -/
theorem linked_list_invariants_witness :
    (∀ op ∈ [LLOp.lafter 1 0, LLOp.lbefore 2 0, LLOp.lunlink 0], LLOpLegal 3 op) ∧
    (getPrev (llRun (LinkedList.new 3) [LLOp.lafter 1 0, LLOp.lbefore 2 0, LLOp.lunlink 0])
        (getNext (llRun (LinkedList.new 3) [LLOp.lafter 1 0, LLOp.lbefore 2 0, LLOp.lunlink 0])
          1) = 1 ∧
      getNext (llRun (LinkedList.new 3) [LLOp.lafter 1 0, LLOp.lbefore 2 0, LLOp.lunlink 0])
        (getPrev (llRun (LinkedList.new 3) [LLOp.lafter 1 0, LLOp.lbefore 2 0, LLOp.lunlink 0])
          1) = 1) := by
  have hleg : ∀ op ∈ [LLOp.lafter 1 0, LLOp.lbefore 2 0, LLOp.lunlink 0], LLOpLegal 3 op := by
    intro op hop
    rcases List.mem_cons.mp hop with rfl | hop
    · exact ⟨by decide, by decide, by decide⟩
    rcases List.mem_cons.mp hop with rfl | hop
    · exact ⟨by decide, by decide, by decide⟩
    rcases List.mem_cons.mp hop with rfl | hop
    · show 0 < 3
      decide
    · simp at hop
  exact ⟨hleg, linked_list_invariants 3 [LLOp.lafter 1 0, LLOp.lbefore 2 0, LLOp.lunlink 0]
    hleg 1 (by decide)⟩

/-- C6 evidence.  In the 2-ring `0 <-> 1`, calling `insert_after` on node 0
with anchor node 0 (anchor == self) is not a no-op: the `prev` entry of node 0
changes from 1 to 0, and afterwards `prev[next[1]] = 0 /= 1`, so the arena is
corrupted, contradicting the specified no-op behaviour. -/
theorem insert_after_self_corrupts :
    (getPrev (llRun (LinkedList.new 2) [LLOp.lafter 1 0]) 0 = 1 ∧
      getNext (llRun (LinkedList.new 2) [LLOp.lafter 1 0]) 0 = 1) ∧
    getPrev (insertAfter (llRun (LinkedList.new 2) [LLOp.lafter 1 0]) 0 0) 0 = 0 ∧
    getPrev (insertAfter (llRun (LinkedList.new 2) [LLOp.lafter 1 0]) 0 0)
      (getNext (insertAfter (llRun (LinkedList.new 2) [LLOp.lafter 1 0]) 0 0) 1) ≠ 1 := by
  decide

/-! ## Bit set (src/contrail-collections/src/bit_set.rs)

`BLOCK_SIZE = 64`; the blocks are `u64` values, modelled as naturals below
`2^64`.  Rust's `!0` is `2^64 - 1`, left shifts truncate to 64 bits
(`% 2^64`), and `count_ones` / `trailing_zeros` / `leading_zeros` are modelled
by bit scans over the 64 bit positions. -/

/-- Population count of the low 64 bits (`u64::count_ones`). -/
def count_ones (x : Nat) : Nat :=
  (List.range 64).countP fun i => x.testBit i

/-- Scan for the lowest set bit at position `i` or above; `fuel = 64 - i`. -/
def tzAux (x : Nat) : Nat → Nat → Nat
  | 0, _ => 64
  | fuel + 1, i => if x.testBit i then i else tzAux x fuel (i + 1)

/-- `u64::trailing_zeros` (64 when the value is zero). -/
def trailing_zeros (x : Nat) : Nat := tzAux x 64 0

/-- Scan for the highest set bit from the top; the result counts the leading
zero positions; `fuel = 64 - i`. -/
def lzAux (x : Nat) : Nat → Nat → Nat
  | 0, _ => 64
  | fuel + 1, i => if x.testBit (63 - i) then i else lzAux x fuel (i + 1)

/-- `u64::leading_zeros` (64 when the value is zero). -/
def leading_zeros (x : Nat) : Nat := lzAux x 64 0

structure BitSet where
  blocks : List Nat
  max : Nat

/-- `BitSet::new_full(builder, len)` (requires `len > 0`). -/
def BitSet.new_full (n : Nat) : BitSet :=
  { blocks := List.replicate ((n - 1) / 64 + 1) (2 ^ 64 - 1), max := n - 1 }

/-- `BitSet::new_empty(builder, len)` (requires `len > 0`). -/
def BitSet.new_empty (n : Nat) : BitSet :=
  { blocks := List.replicate ((n - 1) / 64 + 1) 0, max := n - 1 }

/-- `BitSet::capacity`. -/
def BitSet.capacity (bs : BitSet) : Nat := bs.max + 1

/-- `BitSet::contains`. -/
def BitSet.contains (bs : BitSet) (v : Nat) : Bool :=
  if v > bs.max then false
  else ((bs.blocks.getD (v / 64) 0) >>> (v % 64)) &&& 1 == 1

/-- `BitSet::insert`. -/
def BitSet.insert (bs : BitSet) (v : Nat) : BitSet :=
  if v ≤ bs.max then
    let index := v / 64
    let block := bs.blocks.getD index 0
    { bs with blocks := bs.blocks.set index (block ||| (1 <<< (v % 64))) }
  else bs

/-- `BitSet::remove` (`!mask` on `u64` is xor with `2^64 - 1`). -/
def BitSet.remove (bs : BitSet) (v : Nat) : BitSet :=
  if v ≤ bs.max then
    let index := v / 64
    let block := bs.blocks.getD index 0
    { bs with blocks := bs.blocks.set index (block &&& ((2 ^ 64 - 1) ^^^ (1 <<< (v % 64)))) }
  else bs

/-- `BitSet::clear`: zero every block. -/
def BitSet.clear (bs : BitSet) : BitSet :=
  { bs with blocks := List.replicate bs.blocks.length 0 }

/-- `BitSet::count_between`.  The Rust loop over the interior blocks becomes a
mapped sum (addition order is immaterial for the total). -/
def BitSet.count_between (bs : BitSet) (mn mx : Nat) : Nat :=
  if mn ≤ mx ∧ mn ≤ bs.max then
    let mx2 := Nat.min mx bs.max
    let min_block_index := mn / 64
    let max_block_index := mx2 / 64
    let min_offset := mn % 64
    let max_offset := mx2 % 64
    let min_mask := ((2 ^ 64 - 1) <<< min_offset) % 2 ^ 64
    let max_mask := (2 ^ 64 - 1) >>> (64 - max_offset - 1)
    if min_block_index = max_block_index then
      count_ones ((bs.blocks.getD min_block_index 0) &&& (min_mask &&& max_mask))
    else
      count_ones ((bs.blocks.getD min_block_index 0) &&& min_mask) +
        count_ones ((bs.blocks.getD max_block_index 0) &&& max_mask) +
        ((List.range' (min_block_index + 1) (max_block_index - (min_block_index + 1))).map
          fun i => count_ones (bs.blocks.getD i 0)).sum
  else 0

/-- `BitSet::next_above`. -/
def BitSet.next_above (bs : BitSet) (value : Nat) : Option Nat :=
  if h : value > bs.max then none
  else
    let block := value / 64
    let offset := value % 64
    let to_skip := trailing_zeros ((bs.blocks.getD block 0) >>> offset)
    if to_skip = 64 then bs.next_above ((block + 1) * 64)
    else if value + to_skip > bs.max then none
    else some (value + to_skip)
termination_by bs.max + 1 - value
decreasing_by
  simp only [not_lt] at h
  omega

/-- `BitSet::next_below`. -/
def BitSet.next_below (bs : BitSet) (value0 : Nat) : Option Nat :=
  let value := Nat.min value0 bs.max
  let block := value / 64
  let offset := value % 64
  let to_skip := leading_zeros (((bs.blocks.getD block 0) <<< (64 - offset - 1)) % 2 ^ 64)
  if to_skip = 64 then
    if h : block = 0 then none
    else bs.next_below (block * 64 - 1)
  else some (value - to_skip)
termination_by value0
decreasing_by
  have hmin : Nat.min value0 bs.max ≤ value0 := Nat.min_le_left _ _
  omega

/-- Structural invariant of any reachable bit set: the block list has the
length fixed at construction, and every block is a `u64` value. -/
def BitSet.WF (bs : BitSet) : Prop :=
  bs.blocks.length = bs.max / 64 + 1 ∧ ∀ b ∈ bs.blocks, b < 2 ^ 64

theorem new_full_WF (n : Nat) : (BitSet.new_full n).WF := by
  constructor
  · simp [BitSet.new_full]
  · intro b hb
    rw [List.eq_of_mem_replicate hb]
    simp

theorem new_empty_WF (n : Nat) : (BitSet.new_empty n).WF := by
  constructor
  · simp [BitSet.new_empty]
  · intro b hb
    rw [List.eq_of_mem_replicate hb]
    simp

theorem insert_WF {bs : BitSet} (h : bs.WF) (v : Nat) : (bs.insert v).WF := by
  unfold BitSet.insert
  split
  · constructor
    · simp only [List.length_set]
      exact h.1
    · intro b hb
      rcases List.mem_or_eq_of_mem_set hb with hmem | heq
      · exact h.2 b hmem
      · rw [heq]
        apply Nat.or_lt_two_pow
        · rcases Nat.lt_or_ge (v / 64) bs.blocks.length with hlt | hge
          · rw [List.getD_eq_getElem _ _ hlt]
            exact h.2 _ (List.getElem_mem hlt)
          · rw [List.getD_eq_default _ _ hge]
            exact Nat.pos_pow_of_pos _ (by omega)
        · have : (1 <<< (v % 64)) = 2 ^ (v % 64) := by
            rw [Nat.shiftLeft_eq, Nat.one_mul]
          rw [this]
          exact Nat.pow_lt_pow_right (by omega) (by omega)
  · exact h

theorem remove_WF {bs : BitSet} (h : bs.WF) (v : Nat) : (bs.remove v).WF := by
  unfold BitSet.remove
  split
  · constructor
    · simp only [List.length_set]
      exact h.1
    · intro b hb
      rcases List.mem_or_eq_of_mem_set hb with hmem | heq
      · exact h.2 b hmem
      · rw [heq]
        calc bs.blocks.getD (v / 64) 0 &&& ((2 ^ 64 - 1) ^^^ (1 <<< (v % 64))) ≤
              bs.blocks.getD (v / 64) 0 := Nat.and_le_left
          _ < 2 ^ 64 := by
              rcases Nat.lt_or_ge (v / 64) bs.blocks.length with hlt | hge
              · rw [List.getD_eq_getElem _ _ hlt]
                exact h.2 _ (List.getElem_mem hlt)
              · rw [List.getD_eq_default _ _ hge]
                exact Nat.pos_pow_of_pos _ (by omega)
  · exact h

theorem clear_WF {bs : BitSet} (h : bs.WF) : bs.clear.WF := by
  constructor
  · simp only [BitSet.clear, List.length_replicate]
    exact h.1
  · intro b hb
    rw [List.eq_of_mem_replicate hb]
    exact Nat.pos_pow_of_pos _ (by omega)

/-- Membership as a test of the representation bit. -/
theorem contains_eq_testBit (bs : BitSet) (v : Nat) (hv : v ≤ bs.max) :
    bs.contains v = (bs.blocks.getD (v / 64) 0).testBit (v % 64) := by
  unfold BitSet.contains
  rw [if_neg (by omega)]
  rw [Nat.and_one_is_mod, Nat.shiftRight_eq_div_pow, Nat.testBit_to_div_mod]
  rw [Bool.eq_iff_iff]
  simp

theorem contains_false_of_gt (bs : BitSet) (v : Nat) (hv : bs.max < v) :
    bs.contains v = false := by
  unfold BitSet.contains
  rw [if_pos (by omega)]

theorem tzAux_spec (x : Nat) : ∀ fuel i, i + fuel = 64 →
    (tzAux x fuel i = 64 ∧ ∀ j, i ≤ j → j < 64 → x.testBit j = false) ∨
    (tzAux x fuel i < 64 ∧ i ≤ tzAux x fuel i ∧ x.testBit (tzAux x fuel i) = true ∧
      ∀ j, i ≤ j → j < tzAux x fuel i → x.testBit j = false) := by
  intro fuel
  induction fuel with
  | zero =>
    intro i hi
    left
    refine ⟨rfl, ?_⟩
    intro j h1 h2
    omega
  | succ fuel ih =>
    intro i hi
    simp only [tzAux]
    by_cases hb : x.testBit i = true
    · right
      rw [if_pos hb]
      exact ⟨by omega, le_refl i, hb, fun j h1 h2 => by omega⟩
    · rw [if_neg hb]
      have hb' : x.testBit i = false := by
        cases hx : x.testBit i
        · rfl
        · exact absurd hx hb
      rcases ih (i + 1) (by omega) with ⟨h64, hall⟩ | ⟨hlt, hge, hbit, hmin⟩
      · left
        refine ⟨h64, ?_⟩
        intro j hj1 hj2
        rcases Nat.eq_or_lt_of_le hj1 with rfl | hj1
        · exact hb'
        · exact hall j (by omega) hj2
      · right
        refine ⟨hlt, by omega, hbit, ?_⟩
        intro j hj1 hj2
        rcases Nat.eq_or_lt_of_le hj1 with rfl | hj1
        · exact hb'
        · exact hmin j (by omega) hj2

theorem trailing_zeros_spec (x : Nat) :
    (trailing_zeros x = 64 ∧ ∀ j, j < 64 → x.testBit j = false) ∨
    (trailing_zeros x < 64 ∧ x.testBit (trailing_zeros x) = true ∧
      ∀ j, j < trailing_zeros x → x.testBit j = false) := by
  rcases tzAux_spec x 64 0 (by omega) with ⟨ha, hb⟩ | ⟨ha, _, hc, hd⟩
  · exact Or.inl ⟨ha, fun j hj => hb j (by omega) hj⟩
  · exact Or.inr ⟨ha, hc, fun j hj => hd j (by omega) hj⟩

theorem lzAux_spec (x : Nat) : ∀ fuel i, i + fuel = 64 →
    (lzAux x fuel i = 64 ∧ ∀ j, i ≤ j → j < 64 → x.testBit (63 - j) = false) ∨
    (lzAux x fuel i < 64 ∧ i ≤ lzAux x fuel i ∧ x.testBit (63 - lzAux x fuel i) = true ∧
      ∀ j, i ≤ j → j < lzAux x fuel i → x.testBit (63 - j) = false) := by
  intro fuel
  induction fuel with
  | zero =>
    intro i hi
    left
    refine ⟨rfl, ?_⟩
    intro j h1 h2
    omega
  | succ fuel ih =>
    intro i hi
    simp only [lzAux]
    by_cases hb : x.testBit (63 - i) = true
    · right
      rw [if_pos hb]
      exact ⟨by omega, le_refl i, hb, fun j h1 h2 => by omega⟩
    · rw [if_neg hb]
      have hb' : x.testBit (63 - i) = false := by
        cases hx : x.testBit (63 - i)
        · rfl
        · exact absurd hx hb
      rcases ih (i + 1) (by omega) with ⟨h64, hall⟩ | ⟨hlt, hge, hbit, hmin⟩
      · left
        refine ⟨h64, ?_⟩
        intro j hj1 hj2
        rcases Nat.eq_or_lt_of_le hj1 with rfl | hj1
        · exact hb'
        · exact hall j (by omega) hj2
      · right
        refine ⟨hlt, by omega, hbit, ?_⟩
        intro j hj1 hj2
        rcases Nat.eq_or_lt_of_le hj1 with rfl | hj1
        · exact hb'
        · exact hmin j (by omega) hj2

theorem leading_zeros_spec (x : Nat) :
    (leading_zeros x = 64 ∧ ∀ j, j < 64 → x.testBit (63 - j) = false) ∨
    (leading_zeros x < 64 ∧ x.testBit (63 - leading_zeros x) = true ∧
      ∀ j, j < leading_zeros x → x.testBit (63 - j) = false) := by
  rcases lzAux_spec x 64 0 (by omega) with ⟨ha, hb⟩ | ⟨ha, _, hc, hd⟩
  · exact Or.inl ⟨ha, fun j hj => hb j (by omega) hj⟩
  · exact Or.inr ⟨ha, hc, fun j hj => hd j (by omega) hj⟩

/-- Bit `j` of the low mask `!0 << lo` (as a `u64`). -/
theorem maskGE_testBit (lo j : Nat) (hj : j < 64) :
    (((2 ^ 64 - 1) <<< lo) % 2 ^ 64).testBit j = decide (lo ≤ j) := by
  rw [Nat.testBit_mod_two_pow, Nat.testBit_shiftLeft, Nat.testBit_two_pow_sub_one]
  have h1 : decide (j < 64) = true := decide_eq_true hj
  have h2 : decide (j - lo < 64) = true := decide_eq_true (by omega)
  rw [h1, h2]
  simp [ge_iff_le]

/-- Bit `j` of the high mask `!0 >> (64 - hi - 1)`. -/
theorem maskLE_testBit (hi j : Nat) (hhi : hi < 64) :
    ((2 ^ 64 - 1) >>> (64 - hi - 1)).testBit j = decide (j ≤ hi) := by
  rw [Nat.testBit_shiftRight, Nat.testBit_two_pow_sub_one]
  exact decide_eq_decide.mpr (by omega)

/-- Counting bit positions of `0..64` restricted to the window `[lo, hi]`. -/
theorem countP_range64_between (p : Nat → Bool) (lo hi : Nat) (hhi : hi < 64) :
    (List.range 64).countP (fun j => p j && (decide (lo ≤ j) && decide (j ≤ hi))) =
      (List.range' lo (hi + 1 - lo)).countP p := by
  rcases le_or_lt lo hi with hle | hgt
  · have hsplit1 : List.range' 0 lo ++ List.range' lo (hi + 1 - lo) = List.range' 0 (hi + 1) := by
      have h := List.range'_append 0 lo (hi + 1 - lo) 1
      simp only [Nat.one_mul, Nat.zero_add] at h
      rw [show (hi + 1 - lo) + lo = hi + 1 from by omega] at h
      exact h
    have hsplit2 : List.range' 0 (hi + 1) ++ List.range' (hi + 1) (64 - (hi + 1)) =
        List.range' 0 64 := by
      have h := List.range'_append 0 (hi + 1) (64 - (hi + 1)) 1
      simp only [Nat.one_mul, Nat.zero_add] at h
      rw [show (64 - (hi + 1)) + (hi + 1) = 64 from by omega] at h
      exact h
    rw [List.range_eq_range', ← hsplit2, ← hsplit1, List.countP_append, List.countP_append]
    have hz1 : (List.range' 0 lo).countP
        (fun j => p j && (decide (lo ≤ j) && decide (j ≤ hi))) = 0 := by
      rw [List.countP_eq_zero]
      intro j hj
      have hb := List.mem_range'_1.mp hj
      simp only [Bool.and_eq_true, decide_eq_true_eq, not_and]
      intro _ h
      omega
    have hz2 : (List.range' (hi + 1) (64 - (hi + 1))).countP
        (fun j => p j && (decide (lo ≤ j) && decide (j ≤ hi))) = 0 := by
      rw [List.countP_eq_zero]
      intro j hj
      have hb := List.mem_range'_1.mp hj
      simp only [Bool.and_eq_true, decide_eq_true_eq, not_and]
      intro _ h
      omega
    have hmid : (List.range' lo (hi + 1 - lo)).countP
        (fun j => p j && (decide (lo ≤ j) && decide (j ≤ hi))) =
        (List.range' lo (hi + 1 - lo)).countP p := by
      apply List.countP_congr
      intro j hj
      have hb := List.mem_range'_1.mp hj
      simp only [Bool.and_eq_true, decide_eq_true_eq]
      constructor
      · rintro ⟨hp, -⟩
        exact hp
      · intro hp
        exact ⟨hp, by omega, by omega⟩
    rw [hz1, hz2, hmid]
    omega
  · rw [show hi + 1 - lo = 0 from by omega]
    have hz : (List.range 64).countP
        (fun j => p j && (decide (lo ≤ j) && decide (j ≤ hi))) = 0 := by
      rw [List.countP_eq_zero]
      intro j hj
      simp only [Bool.and_eq_true, decide_eq_true_eq, not_and]
      intro _ h
      omega
    rw [hz]
    rfl

theorem count_ones_and_both (b lo hi : Nat) (hhi : hi < 64) :
    count_ones (b &&& (((2 ^ 64 - 1) <<< lo) % 2 ^ 64 &&& ((2 ^ 64 - 1) >>> (64 - hi - 1)))) =
      (List.range' lo (hi + 1 - lo)).countP (fun o => b.testBit o) := by
  unfold count_ones
  rw [← countP_range64_between (fun o => b.testBit o) lo hi hhi]
  apply List.countP_congr
  intro j hj
  have hj64 : j < 64 := List.mem_range.mp hj
  rw [Nat.testBit_and, Nat.testBit_and, maskGE_testBit lo j hj64, maskLE_testBit hi j hhi]

theorem count_ones_and_maskGE (b lo : Nat) :
    count_ones (b &&& (((2 ^ 64 - 1) <<< lo) % 2 ^ 64)) =
      (List.range' lo (64 - lo)).countP (fun o => b.testBit o) := by
  unfold count_ones
  rw [show (64 : Nat) - lo = 63 + 1 - lo from rfl]
  rw [← countP_range64_between (fun o => b.testBit o) lo 63 (by omega)]
  apply List.countP_congr
  intro j hj
  have hj64 : j < 64 := List.mem_range.mp hj
  rw [Nat.testBit_and, maskGE_testBit lo j hj64]
  have h2 : decide (j ≤ 63) = true := decide_eq_true (by omega)
  rw [h2, Bool.and_true]

theorem count_ones_and_maskLE (b hi : Nat) (hhi : hi < 64) :
    count_ones (b &&& ((2 ^ 64 - 1) >>> (64 - hi - 1))) =
      (List.range' 0 (hi + 1)).countP (fun o => b.testBit o) := by
  unfold count_ones
  rw [show hi + 1 = hi + 1 - 0 from rfl]
  rw [← countP_range64_between (fun o => b.testBit o) 0 hi hhi]
  apply List.countP_congr
  intro j hj
  have hj64 : j < 64 := List.mem_range.mp hj
  rw [Nat.testBit_and, maskLE_testBit hi j hhi]
  have h2 : decide (0 ≤ j) = true := decide_eq_true (by omega)
  rw [h2, Bool.true_and]

theorem countP_range'_shift (p : Nat → Bool) (base k : Nat) :
    (List.range' base k).countP p = (List.range k).countP (fun o => p (base + o)) := by
  rw [List.range'_eq_map_range, List.countP_map]
  rfl

/-- Transfer a one-block range of global positions to bit offsets within that
block. -/
theorem countP_block (bs : BitSet) (B lo k : Nat) (hk : lo + k ≤ 64) :
    (List.range' (64 * B + lo) k).countP
        (fun v => (bs.blocks.getD (v / 64) 0).testBit (v % 64)) =
      (List.range' lo k).countP (fun o => (bs.blocks.getD B 0).testBit o) := by
  rw [countP_range'_shift, countP_range'_shift]
  apply List.countP_congr
  intro o ho
  have ho' : o < k := List.mem_range.mp ho
  have hdiv : (64 * B + lo + o) / 64 = B := by omega
  have hmod : (64 * B + lo + o) % 64 = lo + o := by omega
  rw [hdiv, hmod]

/-- The interior full blocks contribute their population counts. -/
theorem countP_middle (bs : BitSet) : ∀ (m start : Nat),
    (List.range' (64 * start) (64 * m)).countP
        (fun v => (bs.blocks.getD (v / 64) 0).testBit (v % 64)) =
      ((List.range' start m).map (fun i => count_ones (bs.blocks.getD i 0))).sum := by
  intro m
  induction m with
  | zero =>
    intro start
    simp
  | succ m ih =>
    intro start
    have hsplit : List.range' (64 * start) 64 ++ List.range' (64 * start + 64) (64 * m) =
        List.range' (64 * start) (64 * m + 64) := by
      have h := List.range'_append (64 * start) 64 (64 * m) 1
      simp only [Nat.one_mul] at h
      exact h
    have hsum : (List.map (fun i => count_ones (bs.blocks.getD i 0))
        (List.range' start (m + 1))).sum =
        count_ones (bs.blocks.getD start 0) +
          (List.map (fun i => count_ones (bs.blocks.getD i 0)) (List.range' (start + 1) m)).sum := by
      rw [List.range'_succ, List.map_cons, List.sum_cons]
    rw [show 64 * (m + 1) = 64 * m + 64 from by omega, ← hsplit, List.countP_append, hsum]
    congr 1
    · have h := countP_block bs start 0 64 (by omega)
      rw [show 64 * start + 0 = 64 * start from by omega] at h
      rw [h, count_ones, List.range_eq_range']
    · rw [show 64 * start + 64 = 64 * (start + 1) from by omega]
      exact ih (start + 1)

/-- Core of the `count_between` computation for a clamped upper bound
`mn <= M <= self.max`, proved against the bit-level membership count. -/
theorem count_body_spec (bs : BitSet) (mn M : Nat) (h1 : mn ≤ M) (h2 : M ≤ bs.max) :
    (if mn / 64 = M / 64 then
      count_ones ((bs.blocks.getD (mn / 64) 0) &&&
        (((2 ^ 64 - 1) <<< (mn % 64)) % 2 ^ 64 &&& ((2 ^ 64 - 1) >>> (64 - M % 64 - 1))))
    else
      count_ones ((bs.blocks.getD (mn / 64) 0) &&& ((2 ^ 64 - 1) <<< (mn % 64)) % 2 ^ 64) +
        count_ones ((bs.blocks.getD (M / 64) 0) &&& (2 ^ 64 - 1) >>> (64 - M % 64 - 1)) +
        ((List.range' (mn / 64 + 1) (M / 64 - (mn / 64 + 1))).map
          fun i => count_ones (bs.blocks.getD i 0)).sum) =
      (List.range' mn (M + 1 - mn)).countP
        (fun v => (bs.blocks.getD (v / 64) 0).testBit (v % 64)) := by
  by_cases hsame : mn / 64 = M / 64
  · rw [if_pos hsame]
    rw [count_ones_and_both _ _ _ (by omega : M % 64 < 64)]
    have hblk := countP_block bs (mn / 64) (mn % 64) (M + 1 - mn) (by omega)
    rw [show 64 * (mn / 64) + mn % 64 = mn from by omega] at hblk
    rw [show M % 64 + 1 - mn % 64 = M + 1 - mn from by omega, ← hblk]
  · rw [if_neg hsame]
    have hAB : mn / 64 < M / 64 := by omega
    have hd1 : List.range' mn (64 * (mn / 64 + 1) - mn) ++
        List.range' (64 * (mn / 64 + 1)) (M + 1 - 64 * (mn / 64 + 1)) =
        List.range' mn (M + 1 - mn) := by
      have h := List.range'_append mn (64 * (mn / 64 + 1) - mn)
        (M + 1 - 64 * (mn / 64 + 1)) 1
      simp only [Nat.one_mul] at h
      rw [show mn + (64 * (mn / 64 + 1) - mn) = 64 * (mn / 64 + 1) from by omega,
        show M + 1 - 64 * (mn / 64 + 1) + (64 * (mn / 64 + 1) - mn) =
          M + 1 - mn from by omega] at h
      exact h
    have hd2 : List.range' (64 * (mn / 64 + 1)) (64 * (M / 64 - (mn / 64 + 1))) ++
        List.range' (64 * (M / 64)) (M + 1 - 64 * (M / 64)) =
        List.range' (64 * (mn / 64 + 1)) (M + 1 - 64 * (mn / 64 + 1)) := by
      have h := List.range'_append (64 * (mn / 64 + 1)) (64 * (M / 64 - (mn / 64 + 1)))
        (M + 1 - 64 * (M / 64)) 1
      simp only [Nat.one_mul] at h
      rw [show 64 * (mn / 64 + 1) + 64 * (M / 64 - (mn / 64 + 1)) = 64 * (M / 64)
          from by omega,
        show M + 1 - 64 * (M / 64) + 64 * (M / 64 - (mn / 64 + 1)) =
          M + 1 - 64 * (mn / 64 + 1) from by omega] at h
      exact h
    rw [← hd1, ← hd2, List.countP_append, List.countP_append]
    have hp1 : (List.range' mn (64 * (mn / 64 + 1) - mn)).countP
        (fun v => (bs.blocks.getD (v / 64) 0).testBit (v % 64)) =
        count_ones (bs.blocks.getD (mn / 64) 0 &&& ((2 ^ 64 - 1) <<< (mn % 64)) % 2 ^ 64) := by
      have hblk := countP_block bs (mn / 64) (mn % 64) (64 - mn % 64) (by omega)
      rw [show 64 * (mn / 64) + mn % 64 = mn from by omega] at hblk
      rw [show 64 * (mn / 64 + 1) - mn = 64 - mn % 64 from by omega, hblk,
        count_ones_and_maskGE]
    have hp3 : (List.range' (64 * (M / 64)) (M + 1 - 64 * (M / 64))).countP
        (fun v => (bs.blocks.getD (v / 64) 0).testBit (v % 64)) =
        count_ones (bs.blocks.getD (M / 64) 0 &&& (2 ^ 64 - 1) >>> (64 - M % 64 - 1)) := by
      have hblk := countP_block bs (M / 64) 0 (M + 1 - 64 * (M / 64)) (by omega)
      rw [show 64 * (M / 64) + 0 = 64 * (M / 64) from by omega] at hblk
      rw [hblk, show M + 1 - 64 * (M / 64) = M % 64 + 1 from by omega,
        count_ones_and_maskLE _ _ (by omega : M % 64 < 64)]
    have hp2 := countP_middle bs (M / 64 - (mn / 64 + 1)) (mn / 64 + 1)
    rw [hp1, hp3, hp2]
    omega

/-- `count_between` computes the number of members in the clamped interval
`[mn, min mx self.max]`. -/
theorem count_between_spec (bs : BitSet) (_hWF : bs.WF) (mn mx : Nat) :
    bs.count_between mn mx =
      (List.range' mn (Nat.min mx bs.max + 1 - mn)).countP (fun v => bs.contains v) := by
  by_cases hcond : mn ≤ mx ∧ mn ≤ bs.max
  · obtain ⟨h1, h2⟩ := hcond
    have hM1 : mn ≤ Nat.min mx bs.max := Nat.le_min.mpr ⟨h1, h2⟩
    have hM2 : Nat.min mx bs.max ≤ bs.max := Nat.min_le_right _ _
    have hcongr : (List.range' mn (Nat.min mx bs.max + 1 - mn)).countP (fun v => bs.contains v) =
        (List.range' mn (Nat.min mx bs.max + 1 - mn)).countP
          (fun v => (bs.blocks.getD (v / 64) 0).testBit (v % 64)) := by
      apply List.countP_congr
      intro v hv
      have hb := List.mem_range'_1.mp hv
      rw [contains_eq_testBit bs v (by omega)]
    rw [hcongr]
    unfold BitSet.count_between
    rw [if_pos ⟨h1, h2⟩]
    simp only []
    exact count_body_spec bs mn (Nat.min mx bs.max) hM1 hM2
  · unfold BitSet.count_between
    rw [if_neg hcond]
    have hz : Nat.min mx bs.max + 1 - mn = 0 := by
      show (if mx ≤ bs.max then mx else bs.max) + 1 - mn = 0
      split <;> omega
    rw [hz]
    rfl

/-- C7: `count_between` returns the number of members in the window
`[mn, min mx self.max]`; it returns `0` whenever `mn > mx` or `mn > self.max`;
and over `[0, capacity - 1]` it returns the total number of members. -/
theorem bit_set_count_between (bs : BitSet) (hWF : bs.WF) (mn mx : Nat) :
    bs.count_between mn mx =
        (List.range' mn (Nat.min mx bs.max + 1 - mn)).countP (fun v => bs.contains v) ∧
      (mx < mn ∨ bs.max < mn → bs.count_between mn mx = 0) ∧
      bs.count_between 0 (bs.capacity - 1) =
        (List.range (bs.max + 1)).countP (fun v => bs.contains v) := by
  refine ⟨count_between_spec bs hWF mn mx, ?_, ?_⟩
  · intro h
    unfold BitSet.count_between
    rw [if_neg (by omega)]
  · rw [count_between_spec bs hWF 0 (bs.capacity - 1)]
    have hcap : bs.capacity - 1 = bs.max := by
      unfold BitSet.capacity
      omega
    have hm : Nat.min bs.max bs.max = bs.max := by
      show (if bs.max ≤ bs.max then bs.max else bs.max) = bs.max
      split <;> rfl
    rw [hcap, hm, List.range_eq_range', Nat.sub_zero]

/-- Witness for C7 at a concretely built full bit set of capacity 5. -/
theorem bit_set_count_between_witness :
    (BitSet.new_full 5).WF ∧
      ((BitSet.new_full 5).count_between 1 3 =
          (List.range' 1 (Nat.min 3 (BitSet.new_full 5).max + 1 - 1)).countP
            (fun v => (BitSet.new_full 5).contains v) ∧
        (3 < 1 ∨ (BitSet.new_full 5).max < 1 → (BitSet.new_full 5).count_between 1 3 = 0) ∧
        (BitSet.new_full 5).count_between 0 ((BitSet.new_full 5).capacity - 1) =
          (List.range ((BitSet.new_full 5).max + 1)).countP
            (fun v => (BitSet.new_full 5).contains v)) :=
  ⟨new_full_WF 5, bit_set_count_between (BitSet.new_full 5) (new_full_WF 5) 1 3⟩

/-- Every block read through `getD` of a well-formed bit set is a `u64`. -/
theorem blocks_getD_lt {bs : BitSet} (h : bs.WF) (i : Nat) : bs.blocks.getD i 0 < 2 ^ 64 := by
  rcases Nat.lt_or_ge i bs.blocks.length with hlt | hge
  · rw [List.getD_eq_getElem _ _ hlt]
    exact h.2 _ (List.getElem_mem hlt)
  · rw [List.getD_eq_default _ _ hge]
    exact Nat.pos_pow_of_pos _ (by omega)

/-- Fuel-indexed correctness of `next_above`: it returns `none` exactly when no
member lies at or above `value`, and otherwise the least such member. -/
theorem next_above_correct (bs : BitSet) (hWF : bs.WF) : ∀ fuel value,
    bs.max + 1 - value ≤ fuel →
    (bs.next_above value = none ∧ ∀ w, value ≤ w → bs.contains w = false) ∨
    (∃ w, bs.next_above value = some w ∧ value ≤ w ∧ w ≤ bs.max ∧ bs.contains w = true ∧
      ∀ u, value ≤ u → u < w → bs.contains u = false) := by
  intro fuel
  induction fuel with
  | zero =>
    intro value hfuel
    left
    constructor
    · rw [BitSet.next_above.eq_def]
      rw [dif_pos (by omega)]
    · intro w hw
      exact contains_false_of_gt bs w (by omega)
  | succ fuel ih =>
    intro value hfuel
    by_cases hv : value > bs.max
    · left
      constructor
      · rw [BitSet.next_above.eq_def]
        rw [dif_pos hv]
      · intro w hw
        exact contains_false_of_gt bs w (by omega)
    · rw [BitSet.next_above.eq_def, dif_neg hv]
      simp only []
      have hblk : bs.blocks.getD (value / 64) 0 < 2 ^ 64 := blocks_getD_lt hWF _
      have hshift : ∀ j, (bs.blocks.getD (value / 64) 0 >>> (value % 64)).testBit j =
          (bs.blocks.getD (value / 64) 0).testBit (value % 64 + j) := by
        intro j
        rw [Nat.testBit_shiftRight]
      have hsame : ∀ u, value ≤ u → u < (value / 64 + 1) * 64 → u ≤ bs.max →
          bs.contains u =
            (bs.blocks.getD (value / 64) 0 >>> (value % 64)).testBit (u % 64 - value % 64) := by
        intro u h1 h2 h3
        have hud : u / 64 = value / 64 := by omega
        have hum : value % 64 ≤ u % 64 := by omega
        rw [contains_eq_testBit bs u h3, hud, hshift,
          show value % 64 + (u % 64 - value % 64) = u % 64 from by omega]
      by_cases hts : trailing_zeros (bs.blocks.getD (value / 64) 0 >>> (value % 64)) = 64
      · rw [if_pos hts]
        have hdead : ∀ u, value ≤ u → u < (value / 64 + 1) * 64 → bs.contains u = false := by
          intro u h1 h2
          by_cases h3 : u ≤ bs.max
          · rcases trailing_zeros_spec (bs.blocks.getD (value / 64) 0 >>> (value % 64)) with
              ⟨-, hall⟩ | ⟨hlt, -, -⟩
            · rw [hsame u h1 h2 h3]
              exact hall _ (by omega)
            · omega
          · exact contains_false_of_gt bs u (by omega)
        have hstep : value < (value / 64 + 1) * 64 := by omega
        rcases ih ((value / 64 + 1) * 64) (by omega) with ⟨hn, hnone⟩ | ⟨w, hw, h1, h2, h3, hmin⟩
        · left
          refine ⟨hn, ?_⟩
          intro w hw
          by_cases hlt : w < (value / 64 + 1) * 64
          · exact hdead w hw hlt
          · exact hnone w (by omega)
        · right
          refine ⟨w, hw, by omega, h2, h3, ?_⟩
          intro u hu1 hu2
          by_cases hlt : u < (value / 64 + 1) * 64
          · exact hdead u hu1 hlt
          · exact hmin u (by omega) hu2
      · rw [if_neg hts]
        rcases trailing_zeros_spec (bs.blocks.getD (value / 64) 0 >>> (value % 64)) with
          ⟨h64, -⟩ | ⟨hlt, hbit, hmin⟩
        · omega
        · have hlt64 : value % 64 +
              trailing_zeros (bs.blocks.getD (value / 64) 0 >>> (value % 64)) < 64 := by
            by_contra hc
            have hsmall : bs.blocks.getD (value / 64) 0 <
                2 ^ (value % 64 +
                  trailing_zeros (bs.blocks.getD (value / 64) 0 >>> (value % 64))) :=
              lt_of_lt_of_le hblk (Nat.pow_le_pow_right (by omega) (by omega))
            rw [hshift, Nat.testBit_lt_two_pow hsmall] at hbit
            exact Bool.false_ne_true hbit
          have hdead : ∀ u, value ≤ u →
              u < value + trailing_zeros (bs.blocks.getD (value / 64) 0 >>> (value % 64)) →
              u ≤ bs.max → bs.contains u = false := by
            intro u h1 h2 h3
            rw [hsame u h1 (by omega) h3]
            exact hmin _ (by omega)
          by_cases hgt : value +
              trailing_zeros (bs.blocks.getD (value / 64) 0 >>> (value % 64)) > bs.max
          · rw [if_pos hgt]
            left
            refine ⟨rfl, ?_⟩
            intro w hw
            by_cases h3 : w ≤ bs.max
            · exact hdead w hw (by omega) h3
            · exact contains_false_of_gt bs w (by omega)
          · rw [if_neg hgt]
            right
            refine ⟨value + trailing_zeros (bs.blocks.getD (value / 64) 0 >>> (value % 64)),
              rfl, by omega, by omega, ?_, ?_⟩
            · have h3 : value +
                  trailing_zeros (bs.blocks.getD (value / 64) 0 >>> (value % 64)) ≤ bs.max := by
                omega
              rw [hsame _ (by omega) (by omega) h3,
                show (value + trailing_zeros (bs.blocks.getD (value / 64) 0 >>> (value % 64)))
                    % 64 - value % 64 =
                  trailing_zeros (bs.blocks.getD (value / 64) 0 >>> (value % 64)) from by omega]
              exact hbit
            · intro u hu1 hu2
              exact hdead u hu1 hu2 (by omega)

/-- `next_above` characterization without the fuel. -/
theorem next_above_cases (bs : BitSet) (hWF : bs.WF) (value : Nat) :
    (bs.next_above value = none ∧ ∀ w, value ≤ w → bs.contains w = false) ∨
    (∃ w, bs.next_above value = some w ∧ value ≤ w ∧ w ≤ bs.max ∧ bs.contains w = true ∧
      ∀ u, value ≤ u → u < w → bs.contains u = false) :=
  next_above_correct bs hWF (bs.max + 1 - value) value le_rfl

/-- C8 counterexample: on the freshly built full bit set of capacity 1,
`next_above(self.max + 0)` returns `Some(self.max)`, not `None`, so the
claimed edge case fails at `k = 0`. -/
theorem bit_set_next_above_counterexample :
    (BitSet.new_full 1).next_above ((BitSet.new_full 1).max + 0) =
      some (BitSet.new_full 1).max := by
  rw [BitSet.next_above.eq_def]
  decide

/-- C8 (amended: the edge case holds for `k ≥ 1`): on a well-formed bit set,
`next_above v` returns the least member `w ≥ v` when one exists, `none`
exactly when no member lies in `[v, self.max]`, and `next_above (self.max + k)`
is `none` for every `k ≥ 1`. -/
theorem bit_set_next_above (bs : BitSet) (hWF : bs.WF) (v : Nat) :
    (∀ w, bs.next_above v = some w →
        v ≤ w ∧ w ≤ bs.max ∧ bs.contains w = true ∧
          ∀ u, v ≤ u → u < w → bs.contains u = false) ∧
    (bs.next_above v = none ↔ ∀ w, v ≤ w → w ≤ bs.max → bs.contains w = false) ∧
    (∀ k, 1 ≤ k → bs.next_above (bs.max + k) = none) := by
  refine ⟨?_, ⟨?_, ?_⟩, ?_⟩
  · intro w hw
    rcases next_above_cases bs hWF v with ⟨hn, -⟩ | ⟨w', hw', h1, h2, h3, hmin⟩
    · rw [hn] at hw
      exact Option.noConfusion hw
    · rw [hw'] at hw
      injection hw with hww
      subst hww
      exact ⟨h1, h2, h3, hmin⟩
  · intro hn w h1 h2
    rcases next_above_cases bs hWF v with ⟨-, hnone⟩ | ⟨w', hw', -, -, -, -⟩
    · exact hnone w h1
    · rw [hw'] at hn
      exact Option.noConfusion hn
  · intro hall
    rcases next_above_cases bs hWF v with ⟨hn, -⟩ | ⟨w', hw', h1, h2, h3, -⟩
    · exact hn
    · rw [hall w' h1 h2] at h3
      exact absurd h3 Bool.false_ne_true
  · intro k hk
    rw [BitSet.next_above.eq_def, dif_pos (by omega)]

/-- Witness for C8 on the full bit set of capacity 1 at `v = 0`. -/
theorem bit_set_next_above_witness :
    (BitSet.new_full 1).WF ∧
      ((∀ w, (BitSet.new_full 1).next_above 0 = some w →
          0 ≤ w ∧ w ≤ (BitSet.new_full 1).max ∧ (BitSet.new_full 1).contains w = true ∧
            ∀ u, 0 ≤ u → u < w → (BitSet.new_full 1).contains u = false) ∧
        ((BitSet.new_full 1).next_above 0 = none ↔
          ∀ w, 0 ≤ w → w ≤ (BitSet.new_full 1).max → (BitSet.new_full 1).contains w = false) ∧
        (∀ k, 1 ≤ k → (BitSet.new_full 1).next_above ((BitSet.new_full 1).max + k) = none)) :=
  ⟨new_full_WF 1, bit_set_next_above (BitSet.new_full 1) (new_full_WF 1) 0⟩

set_option maxRecDepth 4000 in
/-- Every `Some` answer of `next_below` is at most `self.max` (fuel form). -/
theorem next_below_le_max_fuel (bs : BitSet) : ∀ fuel value0, value0 < fuel →
    ∀ w, bs.next_below value0 = some w → w ≤ bs.max := by
  intro fuel
  induction fuel with
  | zero =>
    intro value0 h0
    omega
  | succ fuel ih =>
    intro value0 h0 w hw
    rw [BitSet.next_below.eq_def] at hw
    simp only [] at hw
    have hmin1 : Nat.min value0 bs.max ≤ value0 := Nat.min_le_left _ _
    have hmin2 : Nat.min value0 bs.max ≤ bs.max := Nat.min_le_right _ _
    by_cases hts : leading_zeros ((bs.blocks.getD (Nat.min value0 bs.max / 64) 0 <<<
        (64 - Nat.min value0 bs.max % 64 - 1)) % 2 ^ 64) = 64
    · rw [if_pos hts] at hw
      by_cases hb : Nat.min value0 bs.max / 64 = 0
      · rw [dif_pos hb] at hw
        exact Option.noConfusion hw
      · rw [dif_neg hb] at hw
        exact ih (Nat.min value0 bs.max / 64 * 64 - 1) (by omega) w hw
    · rw [if_neg hts] at hw
      injection hw with h
      omega

/-- Every `Some` answer of `next_below` is at most `self.max`. -/
theorem next_below_le_max (bs : BitSet) (value0 w : Nat)
    (hw : bs.next_below value0 = some w) : w ≤ bs.max :=
  next_below_le_max_fuel bs (value0 + 1) value0 (by omega) w hw

/-- `count_between` as a count over the positions `0..n` when `self.max = n - 1`:
no position at or above `n` is ever counted. -/
theorem count_between_window (bs : BitSet) (hWF : bs.WF) (n mn mx : Nat) (hn : 1 ≤ n)
    (hmax : bs.max = n - 1) :
    bs.count_between mn mx =
      (List.range n).countP (fun v => decide (mn ≤ v) && decide (v ≤ mx) && bs.contains v) := by
  rw [count_between_spec bs hWF mn mx]
  have hMmx : Nat.min mx bs.max ≤ mx := Nat.min_le_left _ _
  have hMmax : Nat.min mx bs.max ≤ bs.max := Nat.min_le_right _ _
  have hMcases : Nat.min mx bs.max = mx ∨ Nat.min mx bs.max = bs.max := by
    show (if mx ≤ bs.max then mx else bs.max) = mx ∨ (if mx ≤ bs.max then mx else bs.max) = bs.max
    split
    · exact Or.inl rfl
    · exact Or.inr rfl
  by_cases hcase : mn ≤ Nat.min mx bs.max
  · have hsplit1 : List.range' 0 mn ++ List.range' mn (Nat.min mx bs.max + 1 - mn) =
        List.range' 0 (Nat.min mx bs.max + 1) := by
      have h := List.range'_append 0 mn (Nat.min mx bs.max + 1 - mn) 1
      simp only [Nat.one_mul, Nat.zero_add] at h
      rw [show Nat.min mx bs.max + 1 - mn + mn = Nat.min mx bs.max + 1 from by omega] at h
      exact h
    have hsplit2 : List.range' 0 (Nat.min mx bs.max + 1) ++
        List.range' (Nat.min mx bs.max + 1) (n - (Nat.min mx bs.max + 1)) =
        List.range' 0 n := by
      have h := List.range'_append 0 (Nat.min mx bs.max + 1) (n - (Nat.min mx bs.max + 1)) 1
      simp only [Nat.one_mul, Nat.zero_add] at h
      rw [show n - (Nat.min mx bs.max + 1) + (Nat.min mx bs.max + 1) = n from by omega] at h
      exact h
    rw [List.range_eq_range', ← hsplit2, ← hsplit1, List.countP_append, List.countP_append]
    have hz1 : (List.range' 0 mn).countP
        (fun v => decide (mn ≤ v) && decide (v ≤ mx) && bs.contains v) = 0 := by
      rw [List.countP_eq_zero]
      intro v hv
      have hb := List.mem_range'_1.mp hv
      simp only [Bool.and_eq_true, decide_eq_true_eq, not_and]
      intro hcontra
      omega
    have hz2 : (List.range' (Nat.min mx bs.max + 1) (n - (Nat.min mx bs.max + 1))).countP
        (fun v => decide (mn ≤ v) && decide (v ≤ mx) && bs.contains v) = 0 := by
      rw [List.countP_eq_zero]
      intro v hv
      have hb := List.mem_range'_1.mp hv
      rcases hMcases with hM | hM
      · simp only [Bool.and_eq_true, decide_eq_true_eq, not_and]
        intro hcontra
        omega
      · rw [contains_false_of_gt bs v (by omega)]
        simp
    have hmid : (List.range' mn (Nat.min mx bs.max + 1 - mn)).countP
        (fun v => decide (mn ≤ v) && decide (v ≤ mx) && bs.contains v) =
        (List.range' mn (Nat.min mx bs.max + 1 - mn)).countP (fun v => bs.contains v) := by
      apply List.countP_congr
      intro v hv
      have hb := List.mem_range'_1.mp hv
      have h1 : decide (mn ≤ v) = true := decide_eq_true (by omega)
      have h2 : decide (v ≤ mx) = true := decide_eq_true (by omega)
      rw [h1, h2, Bool.true_and, Bool.true_and]
    rw [hz1, hz2, hmid]
    omega
  · rw [show Nat.min mx bs.max + 1 - mn = 0 from by omega]
    have hz : (List.range n).countP
        (fun v => decide (mn ≤ v) && decide (v ≤ mx) && bs.contains v) = 0 := by
      rw [List.countP_eq_zero]
      intro v hv
      have hb := List.mem_range.mp hv
      rcases hMcases with hM | hM
      · simp only [Bool.and_eq_true, decide_eq_true_eq, not_and]
        intro hcontra
        omega
      · simp only [Bool.and_eq_true, decide_eq_true_eq, not_and]
        intro hcontra
        omega
    rw [hz]
    rfl

/-- C10: a full bit set whose capacity is not a multiple of 64 carries phantom
one-bits in the last block at logical positions `n..64*ceil(n/64)`, yet in any
reachable state with `self.max = n - 1` the public interface never observes a
position at or above `n`: `contains` is false there, `next_above` and
`next_below` never answer there, and `count_between` never counts there. -/
theorem bit_set_phantom_bits (n : Nat) (hn : 1 ≤ n) (_hnd : ¬ (64 ∣ n)) :
    (∀ p, n ≤ p → p < 64 * ((n - 1) / 64 + 1) →
      ((BitSet.new_full n).blocks.getD (p / 64) 0).testBit (p % 64) = true) ∧
    ∀ bs : BitSet, bs.WF → bs.max = n - 1 →
      (∀ v, n ≤ v → bs.contains v = false) ∧
      (∀ v w, bs.next_above v = some w → w < n) ∧
      (∀ v w, bs.next_below v = some w → w < n) ∧
      (∀ mn mx, bs.count_between mn mx =
        (List.range n).countP (fun v => decide (mn ≤ v) && decide (v ≤ mx) && bs.contains v)) := by
  constructor
  · intro p hp1 hp2
    have hlt : p / 64 < (List.replicate ((n - 1) / 64 + 1) (2 ^ 64 - 1)).length := by
      rw [List.length_replicate]
      omega
    show ((BitSet.new_full n).blocks.getD (p / 64) 0).testBit (p % 64) = true
    simp only [BitSet.new_full]
    rw [List.getD_eq_getElem _ _ hlt, List.getElem_replicate, Nat.testBit_two_pow_sub_one]
    exact decide_eq_true (by omega)
  · intro bs hWF hmax
    refine ⟨?_, ?_, ?_, ?_⟩
    · intro v hv
      exact contains_false_of_gt bs v (by omega)
    · intro v w hw
      rcases next_above_cases bs hWF v with ⟨hnone, -⟩ | ⟨w', hw', -, h2, -, -⟩
      · rw [hnone] at hw
        exact Option.noConfusion hw
      · rw [hw'] at hw
        injection hw with hww
        omega
    · intro v w hw
      have := next_below_le_max bs v w hw
      omega
    · intro mn mx
      exact count_between_window bs hWF n mn mx hn hmax

/-- Witness for C10 at `n = 5`. -/
theorem bit_set_phantom_bits_witness :
    1 ≤ 5 ∧ ¬ (64 ∣ 5) ∧
      ((∀ p, 5 ≤ p → p < 64 * ((5 - 1) / 64 + 1) →
          ((BitSet.new_full 5).blocks.getD (p / 64) 0).testBit (p % 64) = true) ∧
        ∀ bs : BitSet, bs.WF → bs.max = 5 - 1 →
          (∀ v, 5 ≤ v → bs.contains v = false) ∧
          (∀ v w, bs.next_above v = some w → w < 5) ∧
          (∀ v w, bs.next_below v = some w → w < 5) ∧
          (∀ mn mx, bs.count_between mn mx =
            (List.range 5).countP
              (fun v => decide (mn ≤ v) && decide (v ≤ mx) && bs.contains v))) :=
  ⟨by omega, by omega, bit_set_phantom_bits 5 (by omega) (by omega)⟩

end Contrail

